import Mathlib

/-!
# ktcoin: the chain store, the validator and block admission

A shallow embedding of `blockchain.go` and of the request handling of `server.go`.

Conventions of the embedding.

* Go `int` is the 64-bit two's-complement integer of a 64-bit platform: `GoInt` is an `Int`
  in the range `[-2^63, 2^63)`, and addition wraps around (`wrap64`).
* A Go map is modelled by its contents, as an association list with pairwise distinct
  keys (`AList`); only `lookup` is observable, the order of the entries is not.  A missing
  inner map (the nil map read from an absent key) behaves as the empty map.
* A Go map value is a reference.  `bc.openTransactions[hash] = transaction.Outputs` stores in
  the index the very map object that the transaction in the block holds, so a later
  `delete(bc.openTransactions[input], key)` removes the key from the outputs of that committed
  transaction as well.  The field `holders` of `BlockChain`, which the Go struct does not have,
  records for each key of the index the position of the committed transaction that holds the
  same map object; `openTransactions` and `blocks` give the contents.  The transactions handed
  to `addNextBlock` are taken to come each with an output map of its own, as transactions
  decoded from a request do.
* `crypto/sha256`, `crypto/rsa` and the parts of the package that are not in `blockchain.go`
  or `server.go` (`Transaction.Hash`, `bytesToSign`, `publicKeyString`) are parameters,
  collected in `Primitives`.
* A call that may loop forever takes a fuel argument; `Run` tells a returned value from a
  run-time panic and from an exhausted fuel.
* `runServer` calls `addNextBlock` with a difficulty, an attempt limit and a start nonce before
  the transaction list, while the method of `blockchain.go` has the list for its one
  parameter.  The mining step of the coordinator (`mineStep`) takes the call as a parameter,
  and `addNextBlockCall` is the method of `blockchain.go` at that call site.
-/

namespace Ktcoin

/-! ## Machine integers -/

/-- Reduction of an integer to the 64-bit two's-complement range. -/
def wrap64 (x : Int) : Int :=
  (x + 9223372036854775808) % 18446744073709551616 - 9223372036854775808

/-- Go `int` (64 bits). -/
structure GoInt where
  val : Int
  lo : -9223372036854775808 ≤ val
  hi : val < 9223372036854775808
deriving DecidableEq

namespace GoInt

/-- Conversion of an integer constant, as the Go compiler does for a constant in range. -/
def ofInt (x : Int) : GoInt :=
  ⟨wrap64 x, by unfold wrap64; omega, by unfold wrap64; omega⟩

/-- Go `a + b` on `int`: wraps around on overflow. -/
def add (a b : GoInt) : GoInt := ofInt (a.val + b.val)

instance : Add GoInt := ⟨GoInt.add⟩
instance : Zero GoInt := ⟨GoInt.ofInt 0⟩

/-- Two machine integers with the same value are equal. -/
def eqOfVal {a b : GoInt} (h : a.val = b.val) : a = b := by
  cases a; cases b; cases h; rfl

instance : AddCommMonoid GoInt where
  add := GoInt.add
  zero := GoInt.ofInt 0
  add_assoc a b c := by
    apply eqOfVal
    show wrap64 (wrap64 (a.val + b.val) + c.val) = wrap64 (a.val + wrap64 (b.val + c.val))
    unfold wrap64; omega
  zero_add a := by
    apply eqOfVal
    show wrap64 (wrap64 0 + a.val) = a.val
    have h1 := a.lo
    have h2 := a.hi
    unfold wrap64; omega
  add_zero a := by
    apply eqOfVal
    show wrap64 (a.val + wrap64 0) = a.val
    have h1 := a.lo
    have h2 := a.hi
    unfold wrap64; omega
  add_comm a b := by
    apply eqOfVal
    show wrap64 (a.val + b.val) = wrap64 (b.val + a.val)
    rw [Int.add_comm]
  nsmul := nsmulRec

end GoInt

/-! ## Data model -/

abbrev Byte := Fin 256

/-- Go `type SHA [32]byte`. -/
structure SHA where
  bytes : List Byte
  size : bytes.length = 32
deriving DecidableEq

/-- The byte `h[i]` of a digest. -/
def SHA.byte (h : SHA) (i : Nat) : Byte := h.bytes.getD i 0

/-- Go `rsa.PublicKey`. -/
structure PublicKey where
  N : Int
  E : GoInt
deriving DecidableEq

/-- Equality of association lists is decided on their entries. -/
instance (priority := 2000) decEqAList {α : Type} {β : α → Type} [DecidableEq α]
    [∀ a, DecidableEq (β a)] : DecidableEq (AList β) :=
  fun a b => decidable_of_iff (a.entries = b.entries) AList.ext_iff.symm

/-- Go `map[string]int`: amounts by account key string. -/
abbrev OutputMap := AList (fun _ : String => GoInt)

/-- Go `map[SHA]map[string]int`: the open outputs by transaction hash. -/
abbrev OpenMap := AList (fun _ : SHA => OutputMap)

structure Transaction where
  Inputs : List SHA
  Outputs : OutputMap
  Sender : PublicKey
  Recipient : PublicKey
  Signature : List Byte
deriving DecidableEq

structure Block where
  prevHash : SHA
  nonce : GoInt
  transactions : List Transaction
deriving DecidableEq

structure BlockChain where
  blocks : List Block
  openTransactions : OpenMap
  /-- Not a field of the Go struct: for a key of `openTransactions`, the index of the block
  and the index of the transaction in it whose `Outputs` is the map object stored under the
  key. -/
  holders : AList (fun _ : SHA => Nat × Nat)
deriving DecidableEq

/-- The library functions and the functions of the package that `blockchain.go` calls
without defining them. -/
structure Primitives where
  /-- Library `sha256.Sum256`. -/
  sha256 : List Byte → SHA
  /-- Library `rsa.VerifyPKCS1v15` with `crypto.SHA256`: `true` when it returns a nil error. -/
  verifyPKCS1v15 : PublicKey → SHA → List Byte → Bool
  /-- Package function `bytesToSign(recipient, inputs)`: a digest, or an error. -/
  bytesToSign : PublicKey → List SHA → Except String SHA
  /-- Package function `publicKeyString(key)`. -/
  publicKeyString : PublicKey → String
  /-- Method `Transaction.Hash`. -/
  txHash : Transaction → SHA

/-- The errors `blockchain.go` returns. -/
inductive ChainError where
  /-- An error returned by `bytesToSign`, passed on unchanged. -/
  | encoding (msg : String)
  | invalidSignature
  | notOwned
  | notOpen
  | amountMismatch
  | badCoinbase
deriving DecidableEq

/-- The text of the error. -/
def ChainError.message : ChainError → String
  | .encoding msg => msg
  | .invalidSignature => "invalid signature"
  | .notOwned => "Sender does not own this transaction"
  | .notOpen => "Transaction not open"
  | .amountMismatch => "tx inputs do not match outputs"
  | .badCoinbase => "Invalid genesis transaction: does not create 25 coins"

/-- Outcome of a call. -/
inductive Run (α : Type) where
  /-- The call returned. -/
  | ret : α → Run α
  /-- The call stopped with a run-time panic. -/
  | crash : Run α
  /-- The fuel ran out before the call returned. -/
  | outOfFuel : Run α
deriving DecidableEq

/-! ## `BlockChain.Verify` -/

/-- First loop of `Verify`: every input is a key of `openTransactions` and its entry has the
sender's key string. -/
def checkInputs (bc : BlockChain) (key : String) : List SHA → Option ChainError
  | [] => none
  | input :: rest =>
    match bc.openTransactions.lookup input with
    | some val =>
      match val.lookup key with
      | some _ => checkInputs bc key rest
      | none => some .notOwned
    | none => some .notOpen

/-- Second loop of `Verify`: `inputTotal += senderAmount` for every input; an absent entry or
key reads as zero. -/
def inputTotal (bc : BlockChain) (key : String) : List SHA → GoInt → GoInt
  | [], acc => acc
  | inputSha :: rest, acc =>
    let outputAmounts : OutputMap := (bc.openTransactions.lookup inputSha).getD ∅
    let senderAmount : GoInt := (outputAmounts.lookup key).getD 0
    inputTotal bc key rest (acc + senderAmount)

/-- Loop `for _, amount := range outputs { outputTotal += amount }`. -/
def outputTotal (outputs : OutputMap) : GoInt :=
  outputs.entries.foldl (fun acc e => acc + e.2) 0

/-- The method `BlockChain.Verify`; `none` is the nil error. -/
def Verify (P : Primitives) (bc : BlockChain) (t : Transaction) : Option ChainError :=
  match P.bytesToSign t.Recipient t.Inputs with
  | .error msg => some (.encoding msg)
  | .ok hashed =>
    if P.verifyPKCS1v15 t.Sender hashed t.Signature = false then
      some .invalidSignature
    else
      match checkInputs bc (P.publicKeyString t.Sender) t.Inputs with
      | some e => some e
      | none =>
        if inputTotal bc (P.publicKeyString t.Sender) t.Inputs 0 ≠ outputTotal t.Outputs then
          some .amountMismatch
        else none

/-! ## The reference validator -/

/-- The hash is a key of `openTransactions`. -/
def isOpen (bc : BlockChain) (h : SHA) : Prop := h ∈ bc.openTransactions.keys

instance (bc : BlockChain) (h : SHA) : Decidable (isOpen bc h) := by
  unfold isOpen; infer_instance

/-- The entry of the hash, when there is one, has the key string. -/
def isOwned (bc : BlockChain) (key : String) (h : SHA) : Prop :=
  ∃ m, bc.openTransactions.lookup h = some m ∧ key ∈ m.keys

instance (bc : BlockChain) (key : String) (h : SHA) : Decidable (isOwned bc key h) :=
  match hm : bc.openTransactions.lookup h with
  | none => isFalse (by rintro ⟨m, h1, _⟩; rw [hm] at h1; cases h1)
  | some m =>
    if hk : key ∈ m.keys then isTrue ⟨m, hm, hk⟩
    else isFalse (by rintro ⟨m', h1, h2⟩; rw [hm] at h1; cases h1; exact hk h2)

/-- The amount the entry of the hash holds for the key string, zero when there is none. -/
def amountOwed (bc : BlockChain) (key : String) (h : SHA) : GoInt :=
  match bc.openTransactions.lookup h with
  | none => 0
  | some m => (m.lookup key).getD 0

/-- The validator as the specification words it: the signature, then the first input that is
not open or not owned, then conservation. -/
def referenceVerify (P : Primitives) (digest : SHA) (bc : BlockChain) (t : Transaction) :
    Option ChainError :=
  if P.verifyPKCS1v15 t.Sender digest t.Signature = false then some .invalidSignature
  else
    match t.Inputs.find? (fun h => decide (¬ (isOpen bc h ∧ isOwned bc (P.publicKeyString t.Sender) h))) with
    | some h => if isOpen bc h then some .notOwned else some .notOpen
    | none =>
      if (t.Inputs.map (amountOwed bc (P.publicKeyString t.Sender))).sum
          = (t.Outputs.entries.map (fun e => e.2)).sum then none
      else some .amountMismatch

/-! ## Blocks and the chain -/

/-- Go `uint64(n)` of an `int`. -/
def GoInt.toUint64 (n : GoInt) : Nat := (n.val % 18446744073709551616).toNat

/-- Library `binary.LittleEndian.PutUint64` on a fresh 8-byte slice. -/
def putUint64 (v : Nat) : List Byte :=
  (List.range 8).map (fun i => ⟨(v / 256 ^ i) % 256, Nat.mod_lt _ (by decide)⟩)

/-- The byte string `Block.Hash` digests: `prevHash`, the nonce, then the hash of every
transaction in order. -/
def Block.contents (P : Primitives) (block : Block) : List Byte :=
  block.transactions.foldl (fun contents t => contents ++ (P.txHash t).bytes)
    (block.prevHash.bytes ++ putUint64 block.nonce.toUint64)

/-- The method `Block.Hash`. -/
def Block.Hash (P : Primitives) (block : Block) : SHA := P.sha256 (block.contents P)

/-- The bytes of the string `genesis`. -/
def genesisBytes : List Byte := [103, 101, 110, 101, 115, 105, 115]

/-- The function `NewBlockChain`. -/
def NewBlockChain (P : Primitives) : BlockChain :=
  { blocks := [{ prevHash := P.sha256 genesisBytes, nonce := 0, transactions := [] }]
    openTransactions := ∅
    holders := ∅ }

/-- The block reward the first transaction of a block must create. -/
def blockReward : GoInt := GoInt.ofInt 25

/-- The verification loop of `addNextBlock`, entered at index `i`: the transaction at index 0
must create 25 coins, every other one must pass `Verify` on the chain as it is. -/
def verifyTransactions (P : Primitives) (bc : BlockChain) : Nat → List Transaction →
    Option ChainError
  | _, [] => none
  | i, t :: rest =>
    if i = 0 then
      if outputTotal t.Outputs ≠ blockReward then some .badCoinbase
      else verifyTransactions P bc (i + 1) rest
    else
      match Verify P bc t with
      | some err => some err
      | none => verifyTransactions P bc (i + 1) rest

/-- The search `for hashedBlock[0] != 0 { newBlock.nonce++; ... }`, entered with the given
nonce; the fuel bounds the number of hashes computed. -/
def mine (P : Primitives) (prevHash : SHA) (transactions : List Transaction) :
    Nat → GoInt → Run Block
  | 0, _ => .outOfFuel
  | fuel + 1, nonce =>
    let newBlock : Block := { prevHash := prevHash, nonce := nonce, transactions := transactions }
    if (newBlock.Hash P).byte 0 ≠ 0 then mine P prevHash transactions fuel (nonce + GoInt.ofInt 1)
    else .ret newBlock

/-- The effect of `delete(bc.openTransactions[input], key)` on the index: nothing happens when
the input has no entry. -/
def spendInput (key : String) (openTxs : OpenMap) (input : SHA) : OpenMap :=
  match openTxs.lookup input with
  | none => openTxs
  | some outputs => openTxs.insert input (outputs.erase key)

/-- The effect of the body of the last loop of `addNextBlock` on the index, for one
transaction. -/
def applyTransaction (P : Primitives) (openTxs : OpenMap) (transaction : Transaction) : OpenMap :=
  (transaction.Inputs.foldl (spendInput (P.publicKeyString transaction.Sender)) openTxs).insert
    (P.txHash transaction) transaction.Outputs

/-- The list with `f` applied to its element at index `n`, when there is one. -/
def modifyAt {α : Type} (f : α → α) : Nat → List α → List α
  | _, [] => []
  | 0, x :: xs => f x :: xs
  | n + 1, x :: xs => x :: modifyAt f n xs

/-- The blocks after the key has been deleted from the output map of the transaction at index
`j` of the block at index `k`. -/
def eraseOutputAt (key : String) (k j : Nat) (blocks : List Block) : List Block :=
  modifyAt (fun b : Block => { b with
    transactions := modifyAt (fun t : Transaction => { t with Outputs := t.Outputs.erase key })
      j b.transactions }) k blocks

/-- The statement `delete(bc.openTransactions[input], key)`: nothing happens when the input
has no entry; otherwise the key is deleted from the map object of the entry, which is also the
output map of the committed transaction that holds it. -/
def deleteShared (key : String) (bc : BlockChain) (input : SHA) : BlockChain :=
  match bc.openTransactions.lookup input with
  | none => bc
  | some outputs =>
    { blocks :=
        match bc.holders.lookup input with
        | some (k, j) => eraseOutputAt key k j bc.blocks
        | none => bc.blocks
      openTransactions := bc.openTransactions.insert input (outputs.erase key)
      holders := bc.holders }

/-- The body of the last loop of `addNextBlock` for the transaction at index `j` of the block
at index `blockIndex`. -/
def commitTransactionAt (P : Primitives) (blockIndex : Nat) (bc : BlockChain) (j : Nat)
    (transaction : Transaction) : BlockChain :=
  let bc1 := transaction.Inputs.foldl (deleteShared (P.publicKeyString transaction.Sender)) bc
  { blocks := bc1.blocks
    openTransactions := bc1.openTransactions.insert (P.txHash transaction) transaction.Outputs
    holders := bc1.holders.insert (P.txHash transaction) (blockIndex, j) }

/-- The last loop of `addNextBlock`, entered at index `j` of the transactions of the block at
index `blockIndex`. -/
def commitTransactions (P : Primitives) (blockIndex : Nat) :
    Nat → List Transaction → BlockChain → BlockChain
  | _, [], bc => bc
  | j, transaction :: rest, bc =>
    commitTransactions P blockIndex (j + 1) rest (commitTransactionAt P blockIndex bc j transaction)

/-- The method `BlockChain.addNextBlock`: the error returned (`none` is nil) and the chain
after the call. -/
def addNextBlock (P : Primitives) (fuel : Nat) (bc : BlockChain) (transactions : List Transaction) :
    Run (Option ChainError × BlockChain) :=
  match verifyTransactions P bc 0 transactions with
  | some err => .ret (some err, bc)
  | none =>
    match bc.blocks.getLast? with
    | none => .crash
    | some mostRecentBlock =>
      match mine P (mostRecentBlock.Hash P) transactions fuel 0 with
      | .outOfFuel => .outOfFuel
      | .crash => .crash
      | .ret newBlock =>
        .ret (none, commitTransactions P bc.blocks.length 0 transactions
          { bc with blocks := bc.blocks ++ [newBlock] })

/-- The chain states reached from `NewBlockChain()` by calls of `addNextBlock` that return
nil. -/
inductive Reachable (P : Primitives) : BlockChain → Prop where
  | init : Reachable P (NewBlockChain P)
  | step {bc bc2 : BlockChain} (fuel : Nat) (transactions : List Transaction) :
      Reachable P bc → addNextBlock P fuel bc transactions = .ret (none, bc2) → Reachable P bc2

/-! ## The coordinator (`server.go`) -/

/-- The state of `BlockChainServer` that `runServer` reads and writes. -/
structure BlockChainServer where
  openTransactions : List Transaction
  blockchain : BlockChain
  currentNonce : GoInt
deriving DecidableEq

/-- The case `txReq := <-server.incomingTransactions` of `runServer`: the new state and the
error sent back on the callback channel. -/
def handleTransaction (P : Primitives) (server : BlockChainServer) (tx : Transaction) :
    BlockChainServer × Option ChainError :=
  match Verify P server.blockchain tx with
  | none => ({ server with openTransactions := server.openTransactions ++ [tx] }, none)
  | some err => (server, some err)

/-- The list `append([]Transaction{*genesisTx}, server.openTransactions...)` the default case
of `runServer` hands to `addNextBlock`; the reward transaction is built by `NewTransaction`,
which is not part of the two files, and is a parameter. -/
def blockTransactions (server : BlockChainServer) (genesisTx : Transaction) : List Transaction :=
  genesisTx :: server.openTransactions

/-! ## A small instance of the primitives -/

/-- A digest from its first four bytes, the other bytes zero. -/
def digestOf (a b c d : Nat) : SHA :=
  ⟨⟨a % 256, Nat.mod_lt _ (by decide)⟩ :: ⟨b % 256, Nat.mod_lt _ (by decide)⟩ ::
    ⟨c % 256, Nat.mod_lt _ (by decide)⟩ :: ⟨d % 256, Nat.mod_lt _ (by decide)⟩ ::
    List.replicate 28 0, rfl⟩

/-- An instance of the primitives that can be evaluated: the digest of a byte string starts
with a zero byte followed by the length of the string, a signature is valid when it is the
digest itself, and a transaction hash records the sender, the recipient, the number of inputs
and the output total. -/
def toy : Primitives where
  sha256 bs := digestOf 0 bs.length 0 0
  verifyPKCS1v15 _ digest sig := decide (sig = digest.bytes)
  bytesToSign recipient inputs := .ok (digestOf recipient.N.toNat inputs.length 7 0)
  publicKeyString key := if key.N = 1 then "A" else if key.N = 2 then "B" else "M"
  txHash t := digestOf t.Sender.N.toNat t.Recipient.N.toNat t.Inputs.length
    (outputTotal t.Outputs).toUint64

/-- The key of account `A`. -/
def keyA : PublicKey := ⟨1, GoInt.ofInt 65537⟩
/-- The key of account `B`. -/
def keyB : PublicKey := ⟨2, GoInt.ofInt 65537⟩
/-- The key of the miner. -/
def keyM : PublicKey := ⟨3, GoInt.ofInt 65537⟩

/-- The output map with one entry. -/
def pay (key : String) (amount : Int) : OutputMap := AList.singleton key (GoInt.ofInt amount)

/-- The signature the instance `toy` accepts for a recipient and inputs. -/
def toySign (recipient : PublicKey) (inputs : List SHA) : List Byte :=
  (digestOf recipient.N.toNat inputs.length 7 0).bytes

/-- A reward transaction of the miner that pays 25 to `A`. -/
def coinbaseA : Transaction :=
  { Inputs := [], Outputs := pay "A" 25, Sender := keyM, Recipient := keyA, Signature := [] }

/-- A reward transaction of the miner that pays 25 to the miner. -/
def coinbaseM : Transaction :=
  { Inputs := [], Outputs := pay "M" 25, Sender := keyM, Recipient := keyM, Signature := [] }

/-- The transaction by which `A` passes the 25 coins of `coinbaseA` on to `B`. -/
def spendAB : Transaction :=
  { Inputs := [toy.txHash coinbaseA], Outputs := pay "B" 25, Sender := keyA, Recipient := keyB,
    Signature := toySign keyB [toy.txHash coinbaseA] }

/-- The chain after the genesis block and a block holding `coinbaseA`. -/
def chainA : BlockChain :=
  { blocks := (NewBlockChain toy).blocks ++
      [{ prevHash := digestOf 0 40 0 0, nonce := 0, transactions := [coinbaseA] }]
    openTransactions := AList.insert (toy.txHash coinbaseA) (pay "A" 25) ∅
    holders := AList.insert (toy.txHash coinbaseA) (1, 0) ∅ }

/-- A transaction of `A` that lists the hash of `coinbaseA` twice and pays 50 to `B`. -/
def spendTwice : Transaction :=
  { Inputs := [toy.txHash coinbaseA, toy.txHash coinbaseA], Outputs := pay "B" 50,
    Sender := keyA, Recipient := keyB,
    Signature := toySign keyB [toy.txHash coinbaseA, toy.txHash coinbaseA] }

/-- The output map with the amounts `2^63 - 1` for `A`, `2^63 - 1` for `B` and 27 for the
miner: their sum is `2^64 + 25`. -/
def wrappingOutputs : OutputMap :=
  AList.insert "A" (GoInt.ofInt 9223372036854775807)
    (AList.insert "B" (GoInt.ofInt 9223372036854775807) (pay "M" 27))

/-- A reward transaction that pays `wrappingOutputs`. -/
def wrappingCoinbase : Transaction := { coinbaseM with Outputs := wrappingOutputs }

/-- A transaction of `A` that spends the 25 coins of `coinbaseA` and pays `wrappingOutputs`. -/
def wrappingSpend : Transaction := { spendAB with Outputs := wrappingOutputs }

/-- A transaction of the miner without inputs whose outputs, 5 for `A` and -5 for `B`, sum to
zero: `Verify` accepts it on every chain. -/
def zeroSum : Transaction :=
  { Inputs := [], Outputs := AList.insert "A" (GoInt.ofInt 5) (pay "B" (-5)), Sender := keyM,
    Recipient := keyA, Signature := toySign keyA [] }

/-- The transaction by which `A` spends the 5 coins of `zeroSum`. -/
def spendZero : Transaction :=
  { Inputs := [toy.txHash zeroSum], Outputs := pay "A" 5, Sender := keyA, Recipient := keyA,
    Signature := toySign keyA [toy.txHash zeroSum] }

/-- The coordinator on `chainA` with an empty pending pool. -/
def serverA : BlockChainServer :=
  { openTransactions := [], blockchain := chainA, currentNonce := 0 }

/-- The coordinator after `spendAB` has been submitted twice to `serverA`. -/
def serverTwice : BlockChainServer :=
  (handleTransaction toy (handleTransaction toy serverA spendAB).1 spendAB).1

/-! ## SHA-256 -/

namespace Sha256

/-- The eight working words of the hash. -/
structure State where
  a : Nat
  b : Nat
  c : Nat
  d : Nat
  e : Nat
  f : Nat
  g : Nat
  h : Nat

/-- Rotation of a 32-bit word to the right. -/
def rotr (x n : Nat) : Nat := ((x >>> n) ||| (x <<< (32 - n))) % 4294967296

/-- The round constants. -/
def roundConstants : List Nat :=
  [0x428a2f98, 0x71374491, 0xb5c0fbcf, 0xe9b5dba5, 0x3956c25b, 0x59f111f1, 0x923f82a4,
   0xab1c5ed5, 0xd807aa98, 0x12835b01, 0x243185be, 0x550c7dc3, 0x72be5d74, 0x80deb1fe,
   0x9bdc06a7, 0xc19bf174, 0xe49b69c1, 0xefbe4786, 0x0fc19dc6, 0x240ca1cc, 0x2de92c6f,
   0x4a7484aa, 0x5cb0a9dc, 0x76f988da, 0x983e5152, 0xa831c66d, 0xb00327c8, 0xbf597fc7,
   0xc6e00bf3, 0xd5a79147, 0x06ca6351, 0x14292967, 0x27b70a85, 0x2e1b2138, 0x4d2c6dfc,
   0x53380d13, 0x650a7354, 0x766a0abb, 0x81c2c92e, 0x92722c85, 0xa2bfe8a1, 0xa81a664b,
   0xc24b8b70, 0xc76c51a3, 0xd192e819, 0xd6990624, 0xf40e3585, 0x106aa070, 0x19a4c116,
   0x1e376c08, 0x2748774c, 0x34b0bcb5, 0x391c0cb3, 0x4ed8aa4a, 0x5b9cca4f, 0x682e6ff3,
   0x748f82ee, 0x78a5636f, 0x84c87814, 0x8cc70208, 0x90befffa, 0xa4506ceb, 0xbef9a3f7,
   0xc67178f2]

/-- The initial hash value. -/
def initialState : State :=
  ⟨0x6a09e667, 0xbb67ae85, 0x3c6ef372, 0xa54ff53a, 0x510e527f, 0x9b05688c, 0x1f83d9ab,
   0x5be0cd19⟩

/-- The message schedule, most recent word first, extended by `n` words. -/
def extend : Nat → List Nat → List Nat
  | 0, w => w
  | n + 1, w =>
    match w with
    | _ :: w2 :: _ :: _ :: _ :: _ :: w7 :: _ :: _ :: _ :: _ :: _ :: _ :: _ :: w15 :: w16 :: _ =>
      extend n (((w16 + (rotr w15 7 ^^^ rotr w15 18 ^^^ (w15 >>> 3)) + w7
        + (rotr w2 17 ^^^ rotr w2 19 ^^^ (w2 >>> 10))) % 4294967296) :: w)
    | _ => w

/-- One round, on a round constant and a schedule word. -/
def round (s : State) (kw : Nat × Nat) : State :=
  match s, kw with
  | ⟨a, b, c, d, e, f, g, h⟩, (k, w) =>
    let t1 := h + (rotr e 6 ^^^ rotr e 11 ^^^ rotr e 25)
      + ((e &&& f) ^^^ ((4294967295 - e) &&& g)) + k + w
    let t2 := (rotr a 2 ^^^ rotr a 13 ^^^ rotr a 22) + ((a &&& b) ^^^ (a &&& c) ^^^ (b &&& c))
    ⟨(t1 + t2) % 4294967296, a, b, c, (d + t1) % 4294967296, e, f, g⟩

/-- Word-wise addition modulo `2^32`. -/
def addState (s o : State) : State :=
  match s, o with
  | ⟨a, b, c, d, e, f, g, h⟩, ⟨a2, b2, c2, d2, e2, f2, g2, h2⟩ =>
    ⟨(a + a2) % 4294967296, (b + b2) % 4294967296, (c + c2) % 4294967296,
     (d + d2) % 4294967296, (e + e2) % 4294967296, (f + f2) % 4294967296,
     (g + g2) % 4294967296, (h + h2) % 4294967296⟩

/-- The compression of one block of sixteen words. -/
def compress (s : State) (block : List Nat) : State :=
  addState s ((roundConstants.zip (extend 48 block.reverse).reverse).foldl round s)

/-- Big-endian words of a byte string whose length is a multiple of four. -/
def toWords : List Nat → List Nat
  | a :: b :: c :: d :: rest => (a * 16777216 + b * 65536 + c * 256 + d) :: toWords rest
  | _ => []

/-- The first `n` blocks of sixteen words. -/
def blocks : Nat → List Nat → List (List Nat)
  | 0, _ => []
  | n + 1, l => l.take 16 :: blocks n (l.drop 16)

/-- The padded message: the byte `0x80`, zero bytes, and the bit length on eight bytes. -/
def pad (msg : List Nat) : List Nat :=
  msg ++ [128] ++ List.replicate ((119 - msg.length % 64) % 64) 0
    ++ (List.range 8).reverse.map (fun i => (8 * msg.length / 256 ^ i) % 256)

/-- The four bytes of a word, most significant first. -/
def word (x : Nat) : List Byte :=
  [⟨x / 16777216 % 256, Nat.mod_lt _ (by decide)⟩, ⟨x / 65536 % 256, Nat.mod_lt _ (by decide)⟩,
   ⟨x / 256 % 256, Nat.mod_lt _ (by decide)⟩, ⟨x % 256, Nat.mod_lt _ (by decide)⟩]

/-- The digest of the final state. -/
def digest (s : State) : SHA :=
  ⟨word s.a ++ word s.b ++ word s.c ++ word s.d ++ word s.e ++ word s.f ++ word s.g ++ word s.h,
    rfl⟩

/-- The function SHA-256 (FIPS 180-4), Go `sha256.Sum256`. -/
def sum256 (msg : List Byte) : SHA :=
  let words := toWords (pad (msg.map Fin.val))
  digest ((blocks (words.length / 16) words).foldl compress initialState)

end Sha256

/-- The primitives with SHA-256 itself for `sha256`; the other functions are those of `toy`. -/
def withSha256 : Primitives := { toy with sha256 := Sha256.sum256 }

/-- The hash of the genesis block under SHA-256: the `prevHash` of the first mined block. -/
def sha256Prev : SHA :=
  Block.Hash withSha256
    { prevHash := withSha256.sha256 genesisBytes, nonce := 0, transactions := [] }

/-- The block `addNextBlock` builds on the genesis block for the empty transaction list and a
nonce. -/
def emptyBlock (nonce : Nat) : Block :=
  { prevHash := sha256Prev, nonce := GoInt.ofInt nonce, transactions := [] }

/-- The hashes of the blocks with the nonces `start`, ..., `start + count - 1` all have a first
byte other than zero. -/
def allMiss (P : Primitives) (prevHash : SHA) (transactions : List Transaction)
    (start count : Nat) : Bool :=
  (List.range count).all (fun i =>
    decide ((Block.Hash P ⟨prevHash, GoInt.ofInt (start + i : Nat), transactions⟩).byte 0 ≠ 0))

/-! ## Notions the properties are stated with -/

/-- The total of all amounts held in an index of open outputs, over every transaction hash
and every account, as an integer. -/
def totalHeld (openTxs : OpenMap) : Int :=
  (openTxs.entries.map (fun e => (e.2.entries.map (fun x => x.2.val)).sum)).sum

/-- The sum of the amounts of an output map, as an integer. -/
def outputSum (outputs : OutputMap) : Int := (outputs.entries.map (fun e => e.2.val)).sum

/-- The sum, over the inputs, of the amount owed to the key string, as an integer. -/
def inputSum (bc : BlockChain) (key : String) (inputs : List SHA) : Int :=
  (inputs.map (fun h => (amountOwed bc key h).val)).sum

/-- The entry of hash `h`, when there is one, holds nothing for the key string. -/
def inputSpent (openTxs : OpenMap) (key : String) (h : SHA) : Prop :=
  ∀ m, openTxs.lookup h = some m → m.lookup key = none

/-- The chain states reached from a chain state by calls of `addNextBlock` that return nil and
commit no transaction whose hash is `h`. -/
inductive ReachableAvoiding (P : Primitives) (h : SHA) : BlockChain → BlockChain → Prop where
  | refl (bc : BlockChain) : ReachableAvoiding P h bc bc
  | step {bc bc1 bc2 : BlockChain} (fuel : Nat) (transactions : List Transaction) :
      ReachableAvoiding P h bc bc1 → (∀ u ∈ transactions, P.txHash u ≠ h) →
      addNextBlock P fuel bc1 transactions = .ret (none, bc2) → ReachableAvoiding P h bc bc2

/-- An index of open outputs as a partial function: the hash to the amounts by key string. -/
def OpenMap.view (openTxs : OpenMap) : SHA → Option (String → Option GoInt) :=
  fun h => (openTxs.lookup h).map (fun m k => m.lookup k)

/-- Removal of a key string from the entry of an input, when the input has an entry; no other
entry changes. -/
def removeOwner (key : String) (f : SHA → Option (String → Option GoInt)) (input : SHA) :
    SHA → Option (String → Option GoInt) :=
  Function.update f input ((f input).map (fun m => Function.update m key none))

/-- The update the specification gives for one committed transaction: for each input remove
the sender's key string from the entry of the input, then set the entry of the hash of the
transaction to its outputs. -/
def commitTransaction (P : Primitives) (f : SHA → Option (String → Option GoInt))
    (tx : Transaction) : SHA → Option (String → Option GoInt) :=
  Function.update (tx.Inputs.foldl (removeOwner (P.publicKeyString tx.Sender)) f)
    (P.txHash tx) (some (fun k => tx.Outputs.lookup k))

/-- A transaction without its outputs. -/
def Transaction.frame (t : Transaction) : List SHA × PublicKey × PublicKey × List Byte :=
  (t.Inputs, t.Sender, t.Recipient, t.Signature)

/-- A block without the outputs of its transactions. -/
def Block.frame (b : Block) :
    SHA × GoInt × List (List SHA × PublicKey × PublicKey × List Byte) :=
  (b.prevHash, b.nonce, b.transactions.map Transaction.frame)

/-- A transaction of `A` with a signature that does not verify. -/
def badSignature : Transaction := { spendAB with Signature := [] }

/-- The output map with two entries, for `A` and for `B`. -/
def payBoth (a b : Int) : OutputMap := AList.insert "A" (GoInt.ofInt a) (pay "B" b)

/-- The transaction by which `A` splits the 25 coins of `coinbaseA`: 10 to `A`, 15 to `B`. -/
def splitAB : Transaction := { spendAB with Outputs := payBoth 10 15 }

/-! ## `BlockChain.GetOpenInputs` and the query of the coordinator -/

/-- Go `map[SHA]int`: amounts by transaction hash. -/
abbrev InputMap := AList (fun _ : SHA => GoInt)

/-- The method `BlockChain.GetOpenInputs`: the loop over the entries of `bc.openTransactions`
that sets `openInputs[sha] = amount` when the entry has the key string. -/
def GetOpenInputs (P : Primitives) (bc : BlockChain) (key : PublicKey) : InputMap :=
  bc.openTransactions.entries.foldl (fun openInputs e =>
    match e.2.lookup (P.publicKeyString key) with
    | some amount => openInputs.insert e.1 amount
    | none => openInputs) ∅

/-- The case `openInputReq := <-server.openInputRequests` of `runServer`: the state after it
and the mapping sent back on the callback channel. -/
def handleOpenInputs (P : Primitives) (server : BlockChainServer) (key : PublicKey) :
    BlockChainServer × InputMap :=
  (server, GetOpenInputs P server.blockchain key)

/-- The all-zero hash. -/
def zeroHash : SHA := ⟨List.replicate 32 0, rfl⟩

/-- A validly signed transaction of `A` that spends the all-zero hash. -/
def spendNothing : Transaction :=
  { Inputs := [zeroHash], Outputs := pay "B" 25, Sender := keyA, Recipient := keyB,
    Signature := toySign keyB [zeroHash] }


/-! ## The input of the block hash -/

/-- The byte string of the block hash in the words of the specification: `prevHash`, then the
8 bytes of the nonce, then the hashes of the transactions in order. -/
def Block.hashInput (P : Primitives) (block : Block) : List Byte :=
  block.prevHash.bytes ++ putUint64 block.nonce.toUint64 ++
    (block.transactions.map (fun t => (P.txHash t).bytes)).flatten

/-- Library `binary.LittleEndian.Uint64`: the number a byte string encodes, lowest byte
first. -/
def getUint64 (bs : List Byte) : Nat := bs.foldr (fun b acc => b.val + 256 * acc) 0

/-! ## The constants of the coordinator and the difficulty -/

/-- Constant `NonceAttempts` of `server.go`. -/
def NonceAttempts : GoInt := GoInt.ofInt 10000

/-- Constant `NonceDifficulty` of `server.go`. -/
def NonceDifficulty : Nat := 2

/-- A hash meets a difficulty when it has that many leading zero bytes. -/
def meetsDifficulty (difficulty : Nat) (h : SHA) : Bool :=
  (List.range difficulty).all (fun i => decide (h.byte i = 0))

/-- The chain after `NewBlockChain()` and `addNextBlock` of the empty transaction list, under
SHA-256. -/
def sha256Chain : BlockChain :=
  { blocks := (NewBlockChain withSha256).blocks ++ [emptyBlock 220]
    openTransactions := ∅
    holders := ∅ }


/-! ## The mining step of the coordinator -/

/-- The default case of `runServer` from the call of `addNextBlock` on: `call` stands for
`server.blockchain.addNextBlock(NonceDifficulty, NonceAttempts, server.currentNonce, txs)` and
gives the error returned (`none` is nil) and the chain after the call. A non-nil error adds
`NonceAttempts` to `server.currentNonce`; nil replaces `server.openTransactions` by an empty
slice. -/
def mineStep {ε : Type}
    (call : Nat → GoInt → GoInt → List Transaction → BlockChain → Run (Option ε × BlockChain))
    (server : BlockChainServer) (genesisTx : Transaction) : Run BlockChainServer :=
  match call NonceDifficulty NonceAttempts server.currentNonce
      (blockTransactions server genesisTx) server.blockchain with
  | .ret (some _, bc) =>
    .ret { server with blockchain := bc, currentNonce := server.currentNonce + NonceAttempts }
  | .ret (none, bc) => .ret { server with blockchain := bc, openTransactions := [] }
  | .crash => .crash
  | .outOfFuel => .outOfFuel

/-- The method `addNextBlock` of `blockchain.go` at the call site of `runServer`: the
transaction list is its one parameter. -/
def addNextBlockCall (P : Primitives) (fuel : Nat) :
    Nat → GoInt → GoInt → List Transaction → BlockChain → Run (Option ChainError × BlockChain) :=
  fun _ _ _ txs bc => addNextBlock P fuel bc txs

/-- The coordinator on `chainA` with `spendAB` pending and the nonce offset one batch of
`NonceAttempts` gives. -/
def serverLater : BlockChainServer :=
  { openTransactions := [spendAB], blockchain := chainA, currentNonce := NonceAttempts }

/-! ## A chain of three blocks under SHA-256 -/

/-- A reward transaction of a miner with the key 7 that pays 25 to `A`. -/
def rewardA : Transaction :=
  { Inputs := [], Outputs := pay "A" 25, Sender := ⟨7, GoInt.ofInt 65537⟩, Recipient := keyA,
    Signature := [] }

/-- A reward transaction of a miner with the key 129 that pays 25 to that miner. -/
def rewardM : Transaction :=
  { Inputs := [], Outputs := pay "M" 25, Sender := ⟨129, GoInt.ofInt 65537⟩,
    Recipient := ⟨129, GoInt.ofInt 65537⟩, Signature := [] }

/-- The transaction by which `A` passes the 25 coins of `rewardA` on to `B`. -/
def spendReward : Transaction :=
  { Inputs := [toy.txHash rewardA], Outputs := pay "B" 25, Sender := keyA, Recipient := keyB,
    Signature := toySign keyB [toy.txHash rewardA] }

/-- The block of `rewardA` on the genesis block, as `addNextBlock` appends it under SHA-256. -/
def rewardBlock : Block := { prevHash := sha256Prev, nonce := 0, transactions := [rewardA] }

/-- The chain after the genesis block and `rewardBlock`. -/
def rewardChain : BlockChain :=
  { blocks := (NewBlockChain withSha256).blocks ++ [rewardBlock]
    openTransactions := AList.insert (toy.txHash rewardA) (pay "A" 25) ∅
    holders := AList.insert (toy.txHash rewardA) (1, 0) ∅ }

/-- The chain after `rewardChain` and the commit of a block of `rewardM` and `spendReward` with
the nonce 0. -/
def spentChain : BlockChain :=
  commitTransactions withSha256 2 0 [rewardM, spendReward]
    { rewardChain with
      blocks := rewardChain.blocks ++ [⟨rewardBlock.Hash withSha256, 0, [rewardM, spendReward]⟩] }

/-- The genesis block of `NewBlockChain`. -/
def genesisBlock (P : Primitives) : Block :=
  { prevHash := P.sha256 genesisBytes, nonce := 0, transactions := [] }

/-! ## Theorems -/

theorem GoInt.add_val (a b : GoInt) : (a + b).val = wrap64 (a.val + b.val) := rfl

theorem foldl_add_eq_sum (l : List GoInt) (acc : GoInt) :
    l.foldl (fun a x => a + x) acc = acc + l.sum := by
  induction l generalizing acc with
  | nil => simp
  | cons x xs ih => simp [ih, add_assoc]

theorem outputTotal_eq_sum (m : OutputMap) :
    outputTotal m = (m.entries.map (fun e => e.2)).sum := by
  unfold outputTotal
  rw [← List.foldl_map (fun e : (_ : String) × GoInt => e.2) (fun a x => a + x)]
  rw [foldl_add_eq_sum, zero_add]

theorem inputTotal_eq_sum (bc : BlockChain) (key : String) (inputs : List SHA) (acc : GoInt) :
    inputTotal bc key inputs acc = acc + (inputs.map (amountOwed bc key)).sum := by
  induction inputs generalizing acc with
  | nil => simp [inputTotal]
  | cons h rest ih =>
    simp only [inputTotal, List.map_cons, List.sum_cons]
    rw [ih, add_assoc]
    congr 2
    unfold amountOwed
    cases hl : bc.openTransactions.lookup h with
    | none => simp [AList.lookup_empty]
    | some m => simp

theorem isOpen_iff (bc : BlockChain) (h : SHA) :
    isOpen bc h ↔ ∃ m, bc.openTransactions.lookup h = some m := by
  unfold isOpen
  rw [← AList.mem_keys, ← AList.lookup_isSome, Option.isSome_iff_exists]

theorem checkInputs_eq_find (bc : BlockChain) (key : String) (inputs : List SHA) :
    checkInputs bc key inputs =
      match inputs.find? (fun h => decide (¬ (isOpen bc h ∧ isOwned bc key h))) with
      | some h => if isOpen bc h then some .notOwned else some .notOpen
      | none => none := by
  induction inputs with
  | nil => simp [checkInputs]
  | cons h rest ih =>
    cases hl : bc.openTransactions.lookup h with
    | none =>
      have hno : ¬ isOpen bc h := by
        rw [isOpen_iff]; rintro ⟨m, hm⟩; rw [hl] at hm; cases hm
      simp [checkInputs, hl, List.find?, hno]
    | some m =>
      have ho : isOpen bc h := (isOpen_iff bc h).2 ⟨m, hl⟩
      cases hk : m.lookup key with
      | none =>
        have hnw : ¬ isOwned bc key h := by
          rintro ⟨m', h1, h2⟩
          rw [hl] at h1; cases h1
          rw [← AList.mem_keys, ← AList.lookup_isSome, hk] at h2
          cases h2
        simp [checkInputs, hl, hk, List.find?, ho, hnw]
      | some a =>
        have hw : isOwned bc key h := by
          refine ⟨m, hl, ?_⟩
          rw [← AList.mem_keys, ← AList.lookup_isSome, hk]; rfl
        simp only [checkInputs, hl, hk, ih]
        simp [List.find?, ho, hw]

/-- With the digest that `bytesToSign` returns, `Verify` gives the result of the first failing
check in the order signature, inputs (decided by the first input in list order that is not open
or not owned), conservation, and nil when none fails; the sums of the conservation check are
sums of Go `int`. -/
theorem verify_eq_referenceVerify (P : Primitives) (bc : BlockChain) (t : Transaction)
    (digest : SHA) (hd : P.bytesToSign t.Recipient t.Inputs = Except.ok digest) :
    Verify P bc t = referenceVerify P digest bc t := by
  unfold Verify referenceVerify
  rw [hd]
  simp only
  split
  · rfl
  · rw [checkInputs_eq_find]
    cases hf : List.find?
        (fun h => decide (¬ (isOpen bc h ∧ isOwned bc (P.publicKeyString t.Sender) h)))
        t.Inputs with
    | some h => by_cases ho : isOpen bc h <;> simp [ho]
    | none =>
      simp only
      rw [inputTotal_eq_sum, zero_add, outputTotal_eq_sum]
      split <;> simp_all

/-- The transaction `spendAB` on `chainA`, an instance of `verify_eq_referenceVerify`. -/
theorem verify_eq_referenceVerify_spendAB :
    toy.bytesToSign spendAB.Recipient spendAB.Inputs = Except.ok (digestOf 2 1 7 0) ∧
      Verify toy chainA spendAB = referenceVerify toy (digestOf 2 1 7 0) chainA spendAB :=
  ⟨rfl, verify_eq_referenceVerify toy chainA spendAB (digestOf 2 1 7 0) rfl⟩

/-- Claim C1, evaluated where it fails. On the reachable chain `chainA` the transaction
`wrappingSpend` is validly signed and its one input is open and owned by its sender; the
amount owed to the sender is 25 and the outputs sum to `2^64 + 25`, yet `Verify` returns nil
and not the conservation error. -/
theorem verify_accepts_wrapped_total :
    inputSum chainA (toy.publicKeyString wrappingSpend.Sender) wrappingSpend.Inputs = 25 ∧
    outputSum wrappingSpend.Outputs = 18446744073709551641 ∧
    Verify toy chainA wrappingSpend = none :=
  ⟨by decide, by decide, by decide⟩

/-- An error of `bytesToSign` is returned by `Verify` as it is, before any check. -/
theorem verify_of_bytesToSign_error (P : Primitives) (bc : BlockChain) (t : Transaction)
    (msg : String) (hd : P.bytesToSign t.Recipient t.Inputs = Except.error msg) :
    Verify P bc t = some (.encoding msg) := by
  unfold Verify
  rw [hd]

/-! ### Shape of the results of `addNextBlock` -/

theorem verifyTransactions_succ (P : Primitives) (bc : BlockChain) (i : Nat)
    (l : List Transaction) :
    verifyTransactions P bc (i + 1) l = l.findSome? (Verify P bc) := by
  induction l generalizing i with
  | nil => rfl
  | cons t rest ih =>
    simp only [verifyTransactions, List.findSome?]
    cases hv : Verify P bc t with
    | none => simp [ih]
    | some e => simp

theorem verifyTransactions_cons (P : Primitives) (bc : BlockChain) (c : Transaction)
    (rest : List Transaction) :
    verifyTransactions P bc 0 (c :: rest) =
      if outputTotal c.Outputs ≠ blockReward then some .badCoinbase
      else rest.findSome? (Verify P bc) := by
  simp only [verifyTransactions, if_true, verifyTransactions_succ]

theorem addNextBlock_error (P : Primitives) (fuel : Nat) (bc bc2 : BlockChain)
    (txs : List Transaction) (e : ChainError) :
    addNextBlock P fuel bc txs = .ret (some e, bc2) ↔
      verifyTransactions P bc 0 txs = some e ∧ bc2 = bc := by
  unfold addNextBlock
  cases hv : verifyTransactions P bc 0 txs with
  | some e2 =>
    simp only [Run.ret.injEq, Prod.mk.injEq, Option.some.injEq]
    constructor
    · rintro ⟨h1, h2⟩; exact ⟨h1, h2.symm⟩
    · rintro ⟨h1, h2⟩; exact ⟨h1, h2.symm⟩
  | none =>
    simp only
    cases hl : bc.blocks.getLast? with
    | none => simp
    | some last =>
      simp only
      cases hm : mine P (last.Hash P) txs fuel 0 <;> simp

theorem addNextBlock_ok (P : Primitives) (fuel : Nat) (bc bc2 : BlockChain)
    (txs : List Transaction) :
    addNextBlock P fuel bc txs = .ret (none, bc2) ↔
      verifyTransactions P bc 0 txs = none ∧
      ∃ last newBlock, bc.blocks.getLast? = some last ∧
        mine P (last.Hash P) txs fuel 0 = .ret newBlock ∧
        bc2 = commitTransactions P bc.blocks.length 0 txs
          { bc with blocks := bc.blocks ++ [newBlock] } := by
  unfold addNextBlock
  cases hv : verifyTransactions P bc 0 txs with
  | some e2 => simp
  | none =>
    simp only
    cases hl : bc.blocks.getLast? with
    | none => simp
    | some last =>
      simp only
      cases hm : mine P (last.Hash P) txs fuel 0 with
      | ret b =>
        simp only [Run.ret.injEq, Prod.mk.injEq, true_and, Option.some.injEq]
        constructor
        · intro h; exact ⟨last, b, rfl, hm, h.symm⟩
        · rintro ⟨l2, b2, h1, h2, h3⟩
          cases h1
          rw [hm] at h2
          cases h2
          exact h3.symm
      | crash => simp [hm]
      | outOfFuel => simp [hm]

theorem deleteShared_openTransactions (key : String) (bc : BlockChain) (input : SHA) :
    (deleteShared key bc input).openTransactions = spendInput key bc.openTransactions input := by
  unfold deleteShared spendInput
  cases bc.openTransactions.lookup input <;> rfl

theorem foldl_deleteShared_openTransactions (key : String) (inputs : List SHA)
    (bc : BlockChain) :
    (inputs.foldl (deleteShared key) bc).openTransactions
      = inputs.foldl (spendInput key) bc.openTransactions := by
  induction inputs generalizing bc with
  | nil => rfl
  | cons x rest ih => simp only [List.foldl_cons, ih, deleteShared_openTransactions]

theorem commitTransactions_openTransactions (P : Primitives) (k j : Nat)
    (txs : List Transaction) (bc : BlockChain) :
    (commitTransactions P k j txs bc).openTransactions
      = txs.foldl (applyTransaction P) bc.openTransactions := by
  induction txs generalizing j bc with
  | nil => rfl
  | cons t rest ih =>
    simp only [commitTransactions, List.foldl_cons, ih]
    simp only [commitTransactionAt, applyTransaction, foldl_deleteShared_openTransactions]

/-- The index after a call of `addNextBlock` that returns nil. -/
theorem addNextBlock_openTransactions (P : Primitives) (fuel : Nat) (bc bc2 : BlockChain)
    (txs : List Transaction) (hadd : addNextBlock P fuel bc txs = .ret (none, bc2)) :
    bc2.openTransactions = txs.foldl (applyTransaction P) bc.openTransactions := by
  obtain ⟨_, _, _, _, _, rfl⟩ := (addNextBlock_ok P fuel _ _ _).1 hadd
  rw [commitTransactions_openTransactions]

theorem verify_none (P : Primitives) (bc : BlockChain) (t : Transaction)
    (h : Verify P bc t = none) :
    ∃ digest, P.bytesToSign t.Recipient t.Inputs = .ok digest ∧
      P.verifyPKCS1v15 t.Sender digest t.Signature = true ∧
      checkInputs bc (P.publicKeyString t.Sender) t.Inputs = none ∧
      inputTotal bc (P.publicKeyString t.Sender) t.Inputs 0 = outputTotal t.Outputs := by
  unfold Verify at h
  cases hd : P.bytesToSign t.Recipient t.Inputs with
  | error msg => rw [hd] at h; cases h
  | ok digest =>
    rw [hd] at h
    simp only at h
    refine ⟨digest, rfl, ?_⟩
    cases hs : P.verifyPKCS1v15 t.Sender digest t.Signature with
    | false => simp [hs] at h
    | true =>
      simp only [hs, Bool.true_eq_false, if_false] at h
      cases hc : checkInputs bc (P.publicKeyString t.Sender) t.Inputs with
      | some e => simp [hc] at h
      | none =>
        simp only [hc] at h
        refine ⟨rfl, rfl, ?_⟩
        by_contra hne
        simp [hne] at h

/-! ### The instance `toy` -/

theorem reachable_chainA : Reachable toy chainA :=
  Reachable.step 1 [coinbaseA] Reachable.init (by decide)

/-! ### C2: creation of money -/

/-- Claim C2, evaluated where it fails. On the reachable chain `chainA`, where `A` holds 25, a
block of a reward transaction and a transaction of `A` that lists its one input twice and pays
50 is accepted: the total held goes from 25 to 75, not to 50. -/
theorem addNextBlock_counts_repeated_input_twice :
    Reachable toy chainA ∧ totalHeld chainA.openTransactions = 25 ∧
    ∃ bc2, addNextBlock toy 1 chainA [coinbaseM, spendTwice] = .ret (none, bc2) ∧
      totalHeld bc2.openTransactions = 75 :=
  ⟨reachable_chainA, by decide, _, rfl, by decide⟩

/-! ### C3: spent inputs -/

theorem checkInputs_none (bc : BlockChain) (key : String) (inputs : List SHA)
    (h : checkInputs bc key inputs = none) :
    ∀ x ∈ inputs, ∃ m a, bc.openTransactions.lookup x = some m ∧ m.lookup key = some a := by
  induction inputs with
  | nil => intro x hx; cases hx
  | cons y rest ih =>
    unfold checkInputs at h
    cases hl : bc.openTransactions.lookup y with
    | none => simp [hl] at h
    | some m =>
      cases hk : m.lookup key with
      | none => simp [hl, hk] at h
      | some a =>
        simp only [hl, hk] at h
        intro x hx
        rcases List.mem_cons.1 hx with rfl | hx
        · exact ⟨m, a, hl, hk⟩
        · exact ih h x hx

theorem verify_rejects_spent (P : Primitives) (bc : BlockChain) (t : Transaction) (h : SHA)
    (hs : inputSpent bc.openTransactions (P.publicKeyString t.Sender) h) (hin : h ∈ t.Inputs) :
    Verify P bc t ≠ none := by
  intro hv
  obtain ⟨_, _, _, hc, _⟩ := verify_none P bc t hv
  obtain ⟨m, a, hm, ha⟩ := checkInputs_none bc _ _ hc h hin
  rw [hs m hm] at ha
  cases ha

theorem inputSpent_spendInput (key key2 : String) (o : OpenMap) (h input : SHA)
    (hs : inputSpent o key h) : inputSpent (spendInput key2 o input) key h := by
  unfold spendInput
  cases hl : o.lookup input with
  | none => exact hs
  | some outputs =>
    intro m hm
    by_cases hi : h = input
    · subst hi
      simp only [AList.lookup_insert, Option.some.injEq] at hm
      subst hm
      by_cases hk : key = key2
      · subst hk; exact AList.lookup_erase _ _
      · rw [AList.lookup_erase_ne hk]; exact hs _ hl
    · simp only [AList.lookup_insert_ne hi] at hm
      exact hs m hm

theorem inputSpent_spendInput_self (key : String) (o : OpenMap) (h : SHA) :
    inputSpent (spendInput key o h) key h := by
  unfold spendInput
  cases hl : o.lookup h with
  | none => intro m hm; rw [hl] at hm; cases hm
  | some outputs =>
    intro m hm
    simp only [AList.lookup_insert, Option.some.injEq] at hm
    subst hm
    exact AList.lookup_erase _ _

theorem inputSpent_foldl (key key2 : String) (inputs : List SHA) (o : OpenMap) (h : SHA)
    (hs : inputSpent o key h) : inputSpent (inputs.foldl (spendInput key2) o) key h := by
  induction inputs generalizing o with
  | nil => exact hs
  | cons x rest ih => exact ih _ (inputSpent_spendInput key key2 o h x hs)

theorem inputSpent_foldl_mem (key : String) (inputs : List SHA) (o : OpenMap) (h : SHA)
    (hin : h ∈ inputs) : inputSpent (inputs.foldl (spendInput key) o) key h := by
  induction inputs generalizing o with
  | nil => cases hin
  | cons x rest ih =>
    rcases List.mem_cons.1 hin with rfl | hin
    · exact inputSpent_foldl key key rest _ h (inputSpent_spendInput_self key o h)
    · exact ih _ hin

theorem inputSpent_insert (key : String) (o : OpenMap) (h h2 : SHA) (outputs : OutputMap)
    (hne : h2 ≠ h) (hs : inputSpent o key h) : inputSpent (o.insert h2 outputs) key h := by
  intro m hm
  rw [AList.lookup_insert_ne (Ne.symm hne)] at hm
  exact hs m hm

theorem inputSpent_applyTransaction (P : Primitives) (key : String) (o : OpenMap) (h : SHA)
    (u : Transaction) (hne : P.txHash u ≠ h) (hs : inputSpent o key h) :
    inputSpent (applyTransaction P o u) key h :=
  inputSpent_insert key _ h _ _ hne (inputSpent_foldl key _ u.Inputs o h hs)

theorem inputSpent_applyTransaction_mem (P : Primitives) (o : OpenMap) (h : SHA)
    (t : Transaction) (hne : P.txHash t ≠ h) (hin : h ∈ t.Inputs) :
    inputSpent (applyTransaction P o t) (P.publicKeyString t.Sender) h :=
  inputSpent_insert _ _ h _ _ hne (inputSpent_foldl_mem _ t.Inputs o h hin)

theorem inputSpent_foldl_apply (P : Primitives) (key : String) (txs : List Transaction)
    (o : OpenMap) (h : SHA) (hne : ∀ u ∈ txs, P.txHash u ≠ h) (hs : inputSpent o key h) :
    inputSpent (txs.foldl (applyTransaction P) o) key h := by
  induction txs generalizing o with
  | nil => exact hs
  | cons u rest ih =>
    exact ih _ (fun v hv => hne v (List.mem_cons_of_mem _ hv))
      (inputSpent_applyTransaction P key o h u (hne u (List.mem_cons_self _ _)) hs)

theorem inputSpent_reachableAvoiding (P : Primitives) (key : String) (h : SHA)
    (bc1 bc2 : BlockChain) (hr : ReachableAvoiding P h bc1 bc2)
    (hs : inputSpent bc1.openTransactions key h) : inputSpent bc2.openTransactions key h := by
  induction hr with
  | refl => exact hs
  | step fuel txs _ hne hadd ih =>
    rw [addNextBlock_openTransactions P fuel _ _ txs hadd]
    exact inputSpent_foldl_apply P key txs _ h hne ih

/-- Claim C3 as stated fails. On the reachable chain `chainA`, `A` spends the output of
`coinbaseA` in a committed block and `Verify` then rejects a second spend; after a further
block that commits the reward transaction `coinbaseA` once more, `Verify` accepts the same
spend again. -/
theorem spent_input_reopened_by_recommit :
    Reachable toy chainA ∧ toy.txHash coinbaseA ∈ spendAB.Inputs ∧
    ∃ bc1 bc2, addNextBlock toy 1 chainA [coinbaseM, spendAB] = .ret (none, bc1) ∧
      Verify toy bc1 spendAB = some .notOwned ∧
      addNextBlock toy 1 bc1 [coinbaseA] = .ret (none, bc2) ∧
      Verify toy bc2 spendAB = none :=
  ⟨reachable_chainA, by decide, _, _, rfl, by decide, rfl, by decide⟩

/-- A spent input is open again right after the commit when a transaction behind the spend in
the same block has the hash of the input: here every transaction but the reward has passed
`Verify`, and the spend `spendZero` is accepted after the block that contains it. -/
theorem spent_input_reopened_within_block :
    ∃ bc1 bc2, addNextBlock toy 1 (NewBlockChain toy) [coinbaseM, zeroSum] = .ret (none, bc1) ∧
      addNextBlock toy 1 bc1 [coinbaseM, spendZero, zeroSum] = .ret (none, bc2) ∧
      toy.txHash zeroSum ∈ spendZero.Inputs ∧
      Verify toy bc2 spendZero = none :=
  ⟨_, _, rfl, rfl, by decide, by decide⟩

/-- Claim C3, amended. Once a block has been committed that contains a transaction `t` with
input hash `h`, and neither `t` nor a transaction behind it in the block has hash `h`, `Verify`
rejects every transaction of the same sender key string that lists `h`, in the state right
after the commit and in every state reached from it by successful `addNextBlock` calls that
commit no transaction of hash `h`. -/
theorem no_double_spend_until_recommit (P : Primitives) (fuel : Nat) (bc bc1 bc2 : BlockChain)
    (pre post : List Transaction) (t t2 : Transaction) (h : SHA)
    (hadd : addNextBlock P fuel bc (pre ++ t :: post) = .ret (none, bc1))
    (hin : h ∈ t.Inputs)
    (hfresh : ∀ u ∈ t :: post, P.txHash u ≠ h)
    (hlater : ReachableAvoiding P h bc1 bc2)
    (hsender : P.publicKeyString t2.Sender = P.publicKeyString t.Sender)
    (hin2 : h ∈ t2.Inputs) :
    Verify P bc2 t2 ≠ none := by
  apply verify_rejects_spent P bc2 t2 h _ hin2
  apply inputSpent_reachableAvoiding P _ h bc1 bc2 hlater
  rw [addNextBlock_openTransactions P fuel _ _ _ hadd]
  simp only [List.foldl_append, List.foldl_cons]
  rw [hsender]
  exact inputSpent_foldl_apply P _ post _ h
    (fun u hu => hfresh u (List.mem_cons_of_mem _ hu))
    (inputSpent_applyTransaction_mem P _ h t (hfresh t (List.mem_cons_self _ _)) hin)

/-- The spend `spendAB` committed on `chainA` and one further block, an instance of the amended
C3. -/
theorem no_double_spend_until_recommit_witness :
    ∃ bc1 bc2, addNextBlock toy 1 chainA ([coinbaseM] ++ spendAB :: []) = .ret (none, bc1) ∧
      addNextBlock toy 1 bc1 [coinbaseM] = .ret (none, bc2) ∧
      Verify toy bc2 spendAB ≠ none :=
  ⟨_, _, rfl, rfl,
    no_double_spend_until_recommit toy 1 chainA _ _ [coinbaseM] [] spendAB spendAB
      (toy.txHash coinbaseA) rfl (by decide) (by decide)
      (ReachableAvoiding.step 1 [coinbaseM] (ReachableAvoiding.refl _) (by decide) rfl)
      rfl (by decide)⟩

/-! ### C4: a transaction submitted twice -/

/-- Claim C4, evaluated where it fails. On the reachable chain `chainA` the coordinator is
handed the valid transaction `spendAB` twice: both submissions are answered with nil, the
pending pool holds the transaction twice, and the next block is accepted with the transaction
in it twice. -/
theorem transaction_submitted_twice_is_committed_twice :
    Verify toy chainA spendAB = none ∧
    (handleTransaction toy serverA spendAB).2 = none ∧
    (handleTransaction toy (handleTransaction toy serverA spendAB).1 spendAB).2 = none ∧
    serverTwice.openTransactions = [spendAB, spendAB] ∧
    serverTwice.blockchain = chainA ∧
    ∃ bc2 b, addNextBlock toy 1 serverTwice.blockchain (blockTransactions serverTwice coinbaseM)
        = .ret (none, bc2) ∧
      bc2.blocks.getLast? = some b ∧ b.transactions = [coinbaseM, spendAB, spendAB] ∧
      b.transactions.count spendAB = 2 :=
  ⟨by decide, by decide, by decide, by decide, by decide, _, _, rfl, rfl, by decide, by decide⟩

/-! ### C5: conservation -/

theorem findSome_none_getElem {α β : Type} (f : α → Option β) (l : List α)
    (h : l.findSome? f = none) (i : Nat) (t : α) (ht : l[i]? = some t) : f t = none := by
  rw [List.findSome?_eq_none_iff] at h
  exact h t (List.getElem?_mem ht)

/-- When `addNextBlock` returns nil, every transaction at index 1 or more of the list has
outputs whose sum equals the sum, over its inputs, of the amount owed to its sender in
`openTransactions` as it was before the call, both sums being sums of Go `int`, that is, up to
a multiple of `2^64`. -/
theorem committed_transactions_conserve (P : Primitives) (fuel : Nat) (bc bc2 : BlockChain)
    (txs : List Transaction) (i : Nat) (t : Transaction)
    (hadd : addNextBlock P fuel bc txs = .ret (none, bc2))
    (hi : 1 ≤ i) (ht : txs[i]? = some t) :
    (t.Outputs.entries.map (fun e => e.2)).sum
      = (t.Inputs.map (amountOwed bc (P.publicKeyString t.Sender))).sum := by
  obtain ⟨hv, _⟩ := (addNextBlock_ok P fuel _ _ _).1 hadd
  cases txs with
  | nil => simp at ht
  | cons c rest =>
    obtain ⟨j, rfl⟩ : ∃ j, i = j + 1 := ⟨i - 1, by omega⟩
    rw [verifyTransactions_cons] at hv
    have hrest : rest.findSome? (Verify P bc) = none := by
      by_cases hc : outputTotal c.Outputs ≠ blockReward
      · simp [hc] at hv
      · simpa [hc] using hv
    have hver : Verify P bc t = none :=
      findSome_none_getElem _ rest hrest j t (by simpa using ht)
    obtain ⟨_, _, _, _, hsum⟩ := verify_none P bc t hver
    rw [inputTotal_eq_sum, zero_add, outputTotal_eq_sum] at hsum
    exact hsum.symm

/-- The block of `coinbaseM` and `spendAB` on `chainA`, an instance of
`committed_transactions_conserve`. -/
theorem committed_transactions_conserve_spendAB :
    ∃ bc2, addNextBlock toy 1 chainA [coinbaseM, spendAB] = .ret (none, bc2) ∧
      (spendAB.Outputs.entries.map (fun e => e.2)).sum
        = (spendAB.Inputs.map (amountOwed chainA (toy.publicKeyString spendAB.Sender))).sum :=
  ⟨_, rfl, committed_transactions_conserve toy 1 chainA _ [coinbaseM, spendAB] 1 spendAB rfl
    (by decide) rfl⟩

/-- Claim C5, evaluated where it fails. On the reachable chain `chainA`, `addNextBlock` returns
nil for the block of `coinbaseM` and `wrappingSpend`: the transaction at index 1 is committed
with outputs that sum to `2^64 + 25`, while the amount owed to its sender by its inputs is
25. -/
theorem committed_transaction_does_not_conserve :
    Reachable toy chainA ∧
    (∃ bc2, addNextBlock toy 1 chainA [coinbaseM, wrappingSpend] = .ret (none, bc2)) ∧
    outputSum wrappingSpend.Outputs = 18446744073709551641 ∧
    inputSum chainA (toy.publicKeyString wrappingSpend.Sender) wrappingSpend.Inputs = 25 :=
  ⟨reachable_chainA, ⟨_, rfl⟩, by decide, by decide⟩

/-! ### C7: a rejected block changes nothing -/

/-- Claim C7. When `addNextBlock` returns a non-nil error the chain state after the call,
`blocks` and `openTransactions` with every inner mapping, is the chain state before it. -/
theorem addNextBlock_error_keeps_state (P : Primitives) (fuel : Nat) (bc bc2 : BlockChain)
    (txs : List Transaction) (e : ChainError)
    (hadd : addNextBlock P fuel bc txs = .ret (some e, bc2)) :
    bc2 = bc ∧ bc2.blocks = bc.blocks ∧ bc2.openTransactions = bc.openTransactions := by
  obtain ⟨_, rfl⟩ := (addNextBlock_error P fuel _ _ _ _).1 hadd
  exact ⟨rfl, rfl, rfl⟩

/-- A block with a badly signed transaction on `chainA`, an instance of C7. -/
theorem addNextBlock_error_keeps_state_witness :
    ∃ bc2, addNextBlock toy 1 chainA [coinbaseM, badSignature]
        = .ret (some .invalidSignature, bc2) ∧
      bc2 = chainA ∧ bc2.blocks = chainA.blocks ∧
      bc2.openTransactions = chainA.openTransactions :=
  ⟨chainA, by decide,
    addNextBlock_error_keeps_state toy 1 chainA chainA [coinbaseM, badSignature]
      .invalidSignature (by decide)⟩

/-! ### C8: the effect of a commit -/

theorem mine_ret (P : Primitives) (prev : SHA) (txs : List Transaction) (fuel : Nat)
    (nonce : GoInt) (b : Block) (h : mine P prev txs fuel nonce = .ret b) :
    b.prevHash = prev ∧ b.transactions = txs ∧ (b.Hash P).byte 0 = 0 := by
  induction fuel generalizing nonce with
  | zero => simp [mine] at h
  | succ n ih =>
    unfold mine at h
    simp only at h
    split at h
    · exact ih _ h
    · rename_i hz
      cases h
      exact ⟨rfl, rfl, by simpa using hz⟩

theorem view_spendInput (key : String) (o : OpenMap) (input : SHA) :
    (spendInput key o input).view = removeOwner key o.view input := by
  funext h
  unfold spendInput removeOwner OpenMap.view
  cases hl : o.lookup input with
  | none =>
    by_cases hi : h = input
    · subst hi; simp [hl]
    · simp [Function.update_noteq hi]
  | some outputs =>
    by_cases hi : h = input
    · subst hi
      simp only [AList.lookup_insert, Option.map_some', Function.update_same, hl]
      congr 1
      funext k
      by_cases hk : k = key
      · subst hk; simp [AList.lookup_erase]
      · simp [Function.update_noteq hk, AList.lookup_erase_ne hk]
    · simp [Function.update_noteq hi, AList.lookup_insert_ne hi]

theorem view_foldl_spendInput (key : String) (inputs : List SHA) (o : OpenMap) :
    (inputs.foldl (spendInput key) o).view = inputs.foldl (removeOwner key) o.view := by
  induction inputs generalizing o with
  | nil => rfl
  | cons x rest ih => simp only [List.foldl_cons, ih, view_spendInput]

theorem view_applyTransaction (P : Primitives) (o : OpenMap) (tx : Transaction) :
    (applyTransaction P o tx).view = commitTransaction P o.view tx := by
  funext h
  unfold applyTransaction commitTransaction
  rw [← view_foldl_spendInput]
  unfold OpenMap.view
  by_cases hi : h = P.txHash tx
  · subst hi; simp [AList.lookup_insert]
  · simp [Function.update_noteq hi, AList.lookup_insert_ne hi]

theorem view_foldl_applyTransaction (P : Primitives) (txs : List Transaction) (o : OpenMap) :
    (txs.foldl (applyTransaction P) o).view = txs.foldl (commitTransaction P) o.view := by
  induction txs generalizing o with
  | nil => rfl
  | cons x rest ih => simp only [List.foldl_cons, ih, view_applyTransaction]

/-- When `addNextBlock` returns nil, the new `openTransactions` is, entry by entry, the result
of folding over the transactions in order the update that removes the sender's key string from
the entry of every input and then sets the entry of the hash of the transaction to its
outputs, starting from the old `openTransactions`; no other entry changes. -/
theorem addNextBlock_index_effect (P : Primitives) (fuel : Nat) (bc bc2 : BlockChain)
    (txs : List Transaction) (hadd : addNextBlock P fuel bc txs = .ret (none, bc2)) :
    bc2.openTransactions.view = txs.foldl (commitTransaction P) bc.openTransactions.view := by
  rw [addNextBlock_openTransactions P fuel _ _ _ hadd]
  exact view_foldl_applyTransaction P txs bc.openTransactions

theorem modifyAt_map {α β : Type} (f : α → α) (g : α → β) (hf : ∀ x, g (f x) = g x) (n : Nat)
    (l : List α) : (modifyAt f n l).map g = l.map g := by
  induction l generalizing n with
  | nil => cases n <;> rfl
  | cons x xs ih =>
    cases n with
    | zero => simp [modifyAt, hf]
    | succ m => simp [modifyAt, ih]

theorem eraseOutputAt_frame (key : String) (k j : Nat) (blocks : List Block) :
    (eraseOutputAt key k j blocks).map Block.frame = blocks.map Block.frame := by
  unfold eraseOutputAt
  apply modifyAt_map
  intro b
  simp only [Block.frame, Prod.mk.injEq, true_and]
  exact modifyAt_map (fun t : Transaction => { t with Outputs := t.Outputs.erase key })
    Transaction.frame (fun t => rfl) j b.transactions

theorem deleteShared_frame (key : String) (bc : BlockChain) (input : SHA) :
    (deleteShared key bc input).blocks.map Block.frame = bc.blocks.map Block.frame := by
  unfold deleteShared
  cases bc.openTransactions.lookup input with
  | none => rfl
  | some outputs =>
    simp only
    cases bc.holders.lookup input with
    | none => rfl
    | some kj => exact eraseOutputAt_frame key kj.1 kj.2 bc.blocks

theorem foldl_deleteShared_frame (key : String) (inputs : List SHA) (bc : BlockChain) :
    (inputs.foldl (deleteShared key) bc).blocks.map Block.frame = bc.blocks.map Block.frame := by
  induction inputs generalizing bc with
  | nil => rfl
  | cons x rest ih => simp only [List.foldl_cons, ih, deleteShared_frame]

theorem commitTransactions_frame (P : Primitives) (k j : Nat) (txs : List Transaction)
    (bc : BlockChain) :
    (commitTransactions P k j txs bc).blocks.map Block.frame = bc.blocks.map Block.frame := by
  induction txs generalizing j bc with
  | nil => rfl
  | cons t rest ih =>
    simp only [commitTransactions, ih]
    exact foldl_deleteShared_frame _ t.Inputs bc

/-- When `addNextBlock` returns nil, the new `blocks` is the old one with one block appended
for the given transactions, up to the contents of the output maps of the transactions. -/
theorem addNextBlock_blocks_frame (P : Primitives) (fuel : Nat) (bc bc2 : BlockChain)
    (txs : List Transaction) (hadd : addNextBlock P fuel bc txs = .ret (none, bc2)) :
    ∃ newBlock, newBlock.transactions = txs ∧
      bc2.blocks.map Block.frame = (bc.blocks ++ [newBlock]).map Block.frame := by
  obtain ⟨_, last, newBlock, _, hm, rfl⟩ := (addNextBlock_ok P fuel _ _ _).1 hadd
  exact ⟨newBlock, (mine_ret P _ _ _ _ _ hm).2.1, commitTransactions_frame P _ 0 txs _⟩

/-- Claim C8, evaluated where it fails. On the reachable chain `chainA` the block at index 1
holds `coinbaseA`, which pays 25 to `A`. After `addNextBlock` has returned nil for the block of
`coinbaseM` and `spendAB`, which spends that output, the block at index 1 holds a transaction
with no output: the `delete` on the entry of the index has emptied the map that the committed
transaction holds. -/
theorem commit_rewrites_earlier_block :
    Reachable toy chainA ∧
    chainA.blocks[1]? = some ⟨digestOf 0 40 0 0, 0, [coinbaseA]⟩ ∧
    coinbaseA.Outputs = pay "A" 25 ∧
    ∃ bc2, addNextBlock toy 1 chainA [coinbaseM, spendAB] = .ret (none, bc2) ∧
      bc2.blocks[1]? = some ⟨digestOf 0 40 0 0, 0, [{ coinbaseA with Outputs := ∅ }]⟩ :=
  ⟨reachable_chainA, by decide, rfl, _, rfl, by decide⟩

/-! ### C9: the first transaction of a block -/

theorem verify_ne_badCoinbase (P : Primitives) (bc : BlockChain) (t : Transaction) :
    Verify P bc t ≠ some .badCoinbase := by
  have hc : ∀ inputs, checkInputs bc (P.publicKeyString t.Sender) inputs
      ≠ some .badCoinbase := by
    intro inputs
    induction inputs with
    | nil => simp [checkInputs]
    | cons x rest ih =>
      unfold checkInputs
      cases hl : bc.openTransactions.lookup x with
      | none => simp
      | some m =>
        cases hk : m.lookup (P.publicKeyString t.Sender) with
        | none => simp [hk]
        | some a => simpa [hk] using ih
  unfold Verify
  cases hd : P.bytesToSign t.Recipient t.Inputs with
  | error msg => simp
  | ok digest =>
    simp only
    split
    · simp
    · cases hci : checkInputs bc (P.publicKeyString t.Sender) t.Inputs with
      | some e =>
        simp only [ne_eq, Option.some.injEq]
        intro he
        exact hc t.Inputs (by rw [hci, he])
      | none =>
        simp only
        split <;> simp

theorem findSome_verify_ne_badCoinbase (P : Primitives) (bc : BlockChain)
    (l : List Transaction) : l.findSome? (Verify P bc) ≠ some .badCoinbase := by
  intro h
  obtain ⟨t, _, ht⟩ := List.exists_of_findSome?_eq_some h
  exact verify_ne_badCoinbase P bc t ht

/-- For a non-empty transaction list `c :: rest`: `addNextBlock` returns the coinbase error
exactly when the outputs of `c` do not sum to 25 as a sum of Go `int`, that is, up to a
multiple of `2^64`; when they do, it returns an error exactly when `Verify` of a transaction
of `rest` does, namely the first such error, with the state unchanged; and the error returned
does not depend on any field of `c` other than its outputs, so neither its signature nor its
inputs are checked. -/
theorem coinbase_rule (P : Primitives) (fuel : Nat) (bc : BlockChain) (c : Transaction)
    (rest : List Transaction) :
    ((∃ bc2, addNextBlock P fuel bc (c :: rest) = .ret (some .badCoinbase, bc2)) ↔
        (c.Outputs.entries.map (fun e => e.2)).sum ≠ GoInt.ofInt 25) ∧
    ((c.Outputs.entries.map (fun e => e.2)).sum = GoInt.ofInt 25 →
        ∀ e bc2, addNextBlock P fuel bc (c :: rest) = .ret (some e, bc2) ↔
          (rest.findSome? (Verify P bc) = some e ∧ bc2 = bc)) ∧
    (∀ c2 : Transaction, c2.Outputs = c.Outputs → ∀ e bc2,
        addNextBlock P fuel bc (c2 :: rest) = .ret (some e, bc2) ↔
          addNextBlock P fuel bc (c :: rest) = .ret (some e, bc2)) := by
  refine ⟨?_, ?_, ?_⟩
  · simp only [addNextBlock_error, verifyTransactions_cons, ← outputTotal_eq_sum]
    have hn := findSome_verify_ne_badCoinbase P bc rest
    constructor
    · rintro ⟨bc2, h, _⟩
      intro hc
      have hc2 : ¬ (outputTotal c.Outputs ≠ blockReward) := fun hne => hne hc
      rw [if_neg hc2] at h
      exact hn h
    · intro hc
      have hc2 : outputTotal c.Outputs ≠ blockReward := hc
      exact ⟨bc, by rw [if_pos hc2], rfl⟩
  · intro hsum e bc2
    rw [← outputTotal_eq_sum] at hsum
    have hc : outputTotal c.Outputs = blockReward := hsum
    simp [addNextBlock_error, verifyTransactions_cons, hc]
  · intro c2 h2 e bc2
    simp [addNextBlock_error, verifyTransactions_cons, h2]

/-- Claim C9, evaluated where it fails. The outputs of the reward transaction
`wrappingCoinbase` sum to `2^64 + 25`, not to 25, and `addNextBlock` on `NewBlockChain()`
returns nil for the block that holds it: there is no coinbase error, and the total held is
`2^64 + 25` after the block. -/
theorem coinbase_total_wraps :
    outputSum wrappingCoinbase.Outputs = 18446744073709551641 ∧
    ∃ bc2, addNextBlock toy 1 (NewBlockChain toy) [wrappingCoinbase] = .ret (none, bc2) ∧
      totalHeld bc2.openTransactions = 18446744073709551641 :=
  ⟨by decide, _, rfl, by decide⟩

/-- A block with a badly signed transaction behind a reward of 25, an instance of
`coinbase_rule`. -/
theorem coinbase_rule_badSignature :
    (coinbaseM.Outputs.entries.map (fun e => e.2)).sum = GoInt.ofInt 25 ∧
    (addNextBlock toy 1 chainA (coinbaseM :: [badSignature]) = .ret (some .invalidSignature, chainA)
      ↔ ([badSignature].findSome? (Verify toy chainA) = some .invalidSignature ∧ chainA = chainA)) :=
  ⟨by decide, (coinbase_rule toy 1 chainA coinbaseM [badSignature]).2.1 (by decide) _ _⟩

/-! ### C10: an altered output amount -/

theorem GoInt.add_right_cancel_val {a b c : GoInt} (h : a + c = b + c) : a = b := by
  apply GoInt.eqOfVal
  have hv : (a + c).val = (b + c).val := by rw [h]
  rw [GoInt.add_val, GoInt.add_val] at hv
  have h1 := a.lo
  have h2 := a.hi
  have h3 := b.lo
  have h4 := b.hi
  unfold wrap64 at hv
  omega

theorem entries_perm_of_lookup_eq (m1 m2 : OutputMap)
    (h : ∀ x, m1.lookup x = m2.lookup x) : m1.entries.Perm m2.entries :=
  List.lookup_ext m1.nodupKeys m2.nodupKeys (fun x y => by
    show y ∈ m1.lookup x ↔ y ∈ m2.lookup x
    rw [h])

theorem outputTotal_congr (m1 m2 : OutputMap) (h : ∀ x, m1.lookup x = m2.lookup x) :
    outputTotal m1 = outputTotal m2 := by
  rw [outputTotal_eq_sum, outputTotal_eq_sum]
  exact ((entries_perm_of_lookup_eq m1 m2 h).map _).sum_eq

theorem outputTotal_insert (m : OutputMap) (k : String) (a : GoInt) :
    outputTotal (m.insert k a) = a + outputTotal (m.erase k) := by
  rw [outputTotal_eq_sum, outputTotal_eq_sum, AList.insert_entries]
  rfl

theorem outputTotal_of_lookup (m : OutputMap) (k : String) (a : GoInt)
    (h : m.lookup k = some a) : outputTotal m = a + outputTotal (m.erase k) := by
  rw [← outputTotal_insert]
  apply outputTotal_congr
  intro x
  by_cases hx : x = k
  · subst hx; rw [AList.lookup_insert, h]
  · rw [AList.lookup_insert_ne hx]

/-- Claim C10. A transaction that `Verify` accepts is rejected by `Verify`, on the same chain
state, once the amount of one of its outputs has been altered and all else (sender, recipient,
inputs, signature, the other outputs) is as before; the error is the conservation error. -/
theorem tampered_amount_rejected (P : Primitives) (bc : BlockChain) (t t2 : Transaction)
    (k : String) (a a2 : GoInt)
    (hv : Verify P bc t = none)
    (hsender : t2.Sender = t.Sender) (hrecipient : t2.Recipient = t.Recipient)
    (hinputs : t2.Inputs = t.Inputs) (hsignature : t2.Signature = t.Signature)
    (hk : t.Outputs.lookup k = some a) (hk2 : t2.Outputs.lookup k = some a2)
    (haltered : a2 ≠ a)
    (hothers : ∀ x, x ≠ k → t2.Outputs.lookup x = t.Outputs.lookup x) :
    Verify P bc t2 = some .amountMismatch := by
  obtain ⟨digest, hd, hs, hc, htot⟩ := verify_none P bc t hv
  have hrest : outputTotal (t2.Outputs.erase k) = outputTotal (t.Outputs.erase k) := by
    apply outputTotal_congr
    intro x
    by_cases hx : x = k
    · subst hx; rw [AList.lookup_erase, AList.lookup_erase]
    · rw [AList.lookup_erase_ne hx, AList.lookup_erase_ne hx, hothers x hx]
  have hne : inputTotal bc (P.publicKeyString t.Sender) t.Inputs 0 ≠ outputTotal t2.Outputs := by
    rw [htot, outputTotal_of_lookup _ k a hk, outputTotal_of_lookup _ k a2 hk2, hrest]
    intro heq
    exact haltered (GoInt.add_right_cancel_val heq).symm
  unfold Verify
  rw [hrecipient, hinputs, hsender, hsignature, hd]
  simp only [hs, Bool.true_eq_false, if_false, hc]
  rw [if_pos hne]

/-- The transaction `spendAB` with 26 in place of 25, an instance of C10. -/
theorem tampered_amount_rejected_witness :
    Verify toy chainA spendAB = none ∧
    Verify toy chainA { spendAB with Outputs := pay "B" 26 } = some .amountMismatch :=
  ⟨by decide,
    tampered_amount_rejected toy chainA spendAB { spendAB with Outputs := pay "B" 26 } "B"
      (GoInt.ofInt 25) (GoInt.ofInt 26) (by decide) rfl rfl rfl rfl (by decide) (by decide)
      (by decide) (fun x hx => by
        show (pay "B" 26).lookup x = (pay "B" 25).lookup x
        unfold pay
        rw [← AList.insert_empty, ← AList.insert_empty, AList.lookup_insert_ne hx,
          AList.lookup_insert_ne hx])⟩

/-- The signature does not cover the outputs: with the signature of `splitAB` unchanged, the
outputs may be rebalanced between the accounts, or paid to another account, and `Verify`
accepts as long as their sum is unchanged. -/
theorem rebalanced_outputs_accepted :
    Verify toy chainA splitAB = none ∧
    Verify toy chainA { splitAB with Outputs := payBoth 24 1 } = none ∧
    Verify toy chainA { splitAB with Outputs := pay "M" 25 } = none :=
  ⟨by decide, by decide, by decide⟩

/-! ### SHA-256 -/

set_option maxRecDepth 100000 in
/-- The digest of the three bytes `abc` (FIPS 180-4, first example). -/
theorem sha256_abc :
    (Sha256.sum256 [97, 98, 99]).bytes =
      [186, 120, 22, 191, 143, 1, 207, 234, 65, 65, 64, 222, 93, 174, 34, 35, 176, 3, 97, 163,
        150, 23, 122, 156, 180, 16, 255, 97, 242, 0, 21, 173] := by
  decide!

set_option maxRecDepth 100000 in
/-- The digest of a message of 56 bytes, which takes two blocks (FIPS 180-4, second example). -/
theorem sha256_two_blocks :
    (Sha256.sum256
      [97, 98, 99, 100, 98, 99, 100, 101, 99, 100, 101, 102, 100, 101, 102, 103, 101, 102, 103,
        104, 102, 103, 104, 105, 103, 104, 105, 106, 104, 105, 106, 107, 105, 106, 107, 108, 106,
        107, 108, 109, 107, 108, 109, 110, 108, 109, 110, 111, 109, 110, 111, 112, 110, 111, 112,
        113]).bytes =
      [36, 141, 106, 97, 210, 6, 56, 184, 229, 192, 38, 147, 12, 62, 96, 57, 163, 60, 228, 89,
        100, 255, 33, 103, 246, 236, 237, 212, 25, 219, 6, 193] := by
  decide!

/-! ### C6: proof of work -/

theorem GoInt.ofInt_succ (n : Nat) :
    GoInt.ofInt (n : Nat) + GoInt.ofInt 1 = GoInt.ofInt ((n + 1 : Nat) : Int) := by
  apply GoInt.eqOfVal
  show wrap64 (wrap64 n + wrap64 1) = wrap64 ((n + 1 : Nat) : Int)
  push_cast
  unfold wrap64
  omega

theorem mine_skip (P : Primitives) (prev : SHA) (txs : List Transaction)
    (fuel start count total next : Nat) (htotal : fuel + count = total)
    (hnext : start + count = next) (hmiss : allMiss P prev txs start count = true) :
    mine P prev txs total (GoInt.ofInt (start : Nat)) = mine P prev txs fuel (GoInt.ofInt (next : Nat)) := by
  subst htotal hnext
  induction count generalizing start with
  | zero => rfl
  | succ k ih =>
    unfold allMiss at hmiss
    rw [List.all_eq_true] at hmiss
    have h0 : (Block.Hash P ⟨prev, GoInt.ofInt (start : Nat), txs⟩).byte 0 ≠ 0 := by
      have := hmiss 0 (by simp)
      simpa using this
    have hrest : allMiss P prev txs (start + 1) k = true := by
      unfold allMiss
      rw [List.all_eq_true]
      intro i hi
      have := hmiss (i + 1) (by simpa using hi)
      have e : start + (i + 1) = start + 1 + i := by omega
      rw [e] at this
      exact this
    have hstep : mine P prev txs (fuel + (k + 1)) (GoInt.ofInt (start : Nat))
        = mine P prev txs (fuel + k) (GoInt.ofInt ((start + 1 : Nat) : Int)) := by
      show mine P prev txs (fuel + k + 1) (GoInt.ofInt (start : Nat)) = _
      rw [mine]
      simp only [h0, ne_eq, not_false_eq_true, if_true, GoInt.ofInt_succ]
    rw [hstep, ih (start + 1) hrest]
    congr 3
    omega

theorem mine_hit (P : Primitives) (prev : SHA) (txs : List Transaction) (fuel : Nat)
    (nonce : GoInt)
    (h : (Block.Hash P { prevHash := prev, nonce := nonce, transactions := txs }).byte 0 = 0) :
    mine P prev txs (fuel + 1) nonce
      = .ret { prevHash := prev, nonce := nonce, transactions := txs } := by
  rw [mine]
  simp only [h, ne_eq, not_true_eq_false, if_false]

set_option maxRecDepth 1000000 in
theorem sha256_miss_0 : allMiss withSha256 sha256Prev [] 0 22 = true := by decide!

set_option maxRecDepth 1000000 in
theorem sha256_miss_22 : allMiss withSha256 sha256Prev [] 22 22 = true := by decide!

set_option maxRecDepth 1000000 in
theorem sha256_miss_44 : allMiss withSha256 sha256Prev [] 44 22 = true := by decide!

set_option maxRecDepth 1000000 in
theorem sha256_miss_66 : allMiss withSha256 sha256Prev [] 66 22 = true := by decide!

set_option maxRecDepth 1000000 in
theorem sha256_miss_88 : allMiss withSha256 sha256Prev [] 88 22 = true := by decide!

set_option maxRecDepth 1000000 in
theorem sha256_miss_110 : allMiss withSha256 sha256Prev [] 110 22 = true := by decide!

set_option maxRecDepth 1000000 in
theorem sha256_miss_132 : allMiss withSha256 sha256Prev [] 132 22 = true := by decide!

set_option maxRecDepth 1000000 in
theorem sha256_miss_154 : allMiss withSha256 sha256Prev [] 154 22 = true := by decide!

set_option maxRecDepth 1000000 in
theorem sha256_miss_176 : allMiss withSha256 sha256Prev [] 176 22 = true := by decide!

set_option maxRecDepth 1000000 in
theorem sha256_miss_198 : allMiss withSha256 sha256Prev [] 198 22 = true := by decide!

set_option maxRecDepth 1000000 in
theorem sha256_hit_220 :
    ((emptyBlock 220).Hash withSha256).byte 0 = 0 ∧
    ((emptyBlock 220).Hash withSha256).byte 1 = 125 := by decide!

theorem sha256_mine :
    mine withSha256 sha256Prev [] 221 0 = .ret (emptyBlock 220) := by
  show mine withSha256 sha256Prev [] 221 (GoInt.ofInt (0 : Nat)) = _
  rw [mine_skip withSha256 sha256Prev [] 199 0 22 221 22 rfl rfl sha256_miss_0,
    mine_skip withSha256 sha256Prev [] 177 22 22 199 44 rfl rfl sha256_miss_22,
    mine_skip withSha256 sha256Prev [] 155 44 22 177 66 rfl rfl sha256_miss_44,
    mine_skip withSha256 sha256Prev [] 133 66 22 155 88 rfl rfl sha256_miss_66,
    mine_skip withSha256 sha256Prev [] 111 88 22 133 110 rfl rfl sha256_miss_88,
    mine_skip withSha256 sha256Prev [] 89 110 22 111 132 rfl rfl sha256_miss_110,
    mine_skip withSha256 sha256Prev [] 67 132 22 89 154 rfl rfl sha256_miss_132,
    mine_skip withSha256 sha256Prev [] 45 154 22 67 176 rfl rfl sha256_miss_154,
    mine_skip withSha256 sha256Prev [] 23 176 22 45 198 rfl rfl sha256_miss_176,
    mine_skip withSha256 sha256Prev [] 1 198 22 23 220 rfl rfl sha256_miss_198]
  exact mine_hit withSha256 sha256Prev [] 0 _ sha256_hit_220.1

/-- Claim C6, evaluated where it fails. With SHA-256 for the hash, `addNextBlock` of the empty
transaction list on `NewBlockChain()` returns nil and appends the block of nonce 220, whose
hash starts with the bytes `0x00 0x7d`: the chain is reachable and the second byte of the hash
of its block at index 1 is not zero. -/
theorem committed_block_hash_has_one_zero_byte :
    ∃ bc b, Reachable withSha256 bc ∧ bc.blocks[1]? = some b ∧ b.nonce = GoInt.ofInt 220 ∧
      (b.Hash withSha256).byte 0 = 0 ∧ (b.Hash withSha256).byte 1 = 125 := by
  have hadd : addNextBlock withSha256 221 (NewBlockChain withSha256) []
      = .ret (none, { blocks := (NewBlockChain withSha256).blocks ++ [emptyBlock 220]
                      openTransactions := ∅
                      holders := ∅ }) := by
    rw [addNextBlock_ok]
    exact ⟨rfl, _, _, rfl, sha256_mine, rfl⟩
  exact ⟨_, emptyBlock 220, Reachable.step 221 [] Reachable.init hadd, rfl, rfl,
    sha256_hit_220.1, sha256_hit_220.2⟩

/-! ### C13: `GetOpenInputs` -/

theorem lookup_foldl_openInputs (key : String) (h : SHA) (l : List (Sigma fun _ : SHA => OutputMap))
    (hl : l.NodupKeys) (acc : InputMap) :
    (l.foldl (fun openInputs e =>
        match e.2.lookup key with
        | some amount => openInputs.insert e.1 amount
        | none => openInputs) acc).lookup h
      = match l.dlookup h with
        | some m =>
          match m.lookup key with
          | some a => some a
          | none => acc.lookup h
        | none => acc.lookup h := by
  induction l generalizing acc with
  | nil => simp
  | cons e rest ih =>
    obtain ⟨hne, hrest⟩ := List.nodupKeys_cons.1 hl
    rw [List.foldl_cons, ih hrest]
    by_cases he : h = e.1
    · subst he
      have hnone : List.dlookup e.1 rest = none := List.dlookup_eq_none.2 hne
      rw [hnone, List.dlookup_cons_eq]
      cases hk : e.2.lookup key with
      | some a => simp [hk, AList.lookup_insert]
      | none => simp [hk]
    · rw [List.dlookup_cons_ne _ _ he]
      have hacc : (match e.2.lookup key with
          | some amount => acc.insert e.1 amount
          | none => acc).lookup h = acc.lookup h := by
        cases hk : e.2.lookup key with
        | some a => exact AList.lookup_insert_ne he
        | none => rfl
      rw [hacc]

theorem getOpenInputs_lookup (P : Primitives) (bc : BlockChain) (key : PublicKey) (h : SHA) :
    (GetOpenInputs P bc key).lookup h
      = (bc.openTransactions.lookup h).bind (fun m => m.lookup (P.publicKeyString key)) := by
  unfold GetOpenInputs
  rw [lookup_foldl_openInputs _ h _ bc.openTransactions.nodupKeys ∅]
  show _ = (List.dlookup h bc.openTransactions.entries).bind _
  cases List.dlookup h bc.openTransactions.entries with
  | none => simp
  | some m => cases hk : m.lookup (P.publicKeyString key) <;> simp [hk]

/-- Claim C13. The mapping `GetOpenInputs` returns contains the pair `(h, a)` exactly when `h`
is a key of `openTransactions` and its entry maps the key string of the key to `a`; the query
leaves the state of the coordinator, with `blocks` and `openTransactions`, as it is, and a
second query with the same key on the state after the first returns the same mapping. -/
theorem getOpenInputs_exact (P : Primitives) (server : BlockChainServer) (key : PublicKey)
    (h : SHA) (a : GoInt) :
    ((GetOpenInputs P server.blockchain key).lookup h = some a ↔
      ∃ m, server.blockchain.openTransactions.lookup h = some m ∧
        m.lookup (P.publicKeyString key) = some a) ∧
    (handleOpenInputs P server key).1 = server ∧
    (handleOpenInputs P (handleOpenInputs P server key).1 key).2
      = (handleOpenInputs P server key).2 := by
  refine ⟨?_, rfl, rfl⟩
  rw [getOpenInputs_lookup]
  cases server.blockchain.openTransactions.lookup h with
  | none => simp
  | some m => simp

/-- The query for `A` on `serverA`, whose chain holds the output of `coinbaseA`: an instance
of C13. -/
theorem getOpenInputs_exact_witness :
    GetOpenInputs toy serverA.blockchain keyA
      = AList.singleton (toy.txHash coinbaseA) (GoInt.ofInt 25) ∧
    ((GetOpenInputs toy serverA.blockchain keyA).lookup (toy.txHash coinbaseA)
        = some (GoInt.ofInt 25) ↔
      ∃ m, serverA.blockchain.openTransactions.lookup (toy.txHash coinbaseA) = some m ∧
        m.lookup (toy.publicKeyString keyA) = some (GoInt.ofInt 25)) :=
  ⟨by decide, (getOpenInputs_exact toy serverA keyA (toy.txHash coinbaseA) (GoInt.ofInt 25)).1⟩

/-! ### C15: the chain with the genesis block only -/

/-- Claim C15. On the chain `NewBlockChain()` returns, `Verify` of a validly signed
transaction that has at least one input returns the error `Transaction not open`. -/
theorem verify_on_genesis_not_open (P : Primitives) (t : Transaction) (digest : SHA)
    (hd : P.bytesToSign t.Recipient t.Inputs = Except.ok digest)
    (hs : P.verifyPKCS1v15 t.Sender digest t.Signature = true)
    (hin : t.Inputs ≠ []) :
    Verify P (NewBlockChain P) t = some .notOpen ∧
      ChainError.message .notOpen = "Transaction not open" := by
  refine ⟨?_, rfl⟩
  unfold Verify
  rw [hd]
  simp only [hs, Bool.true_eq_false, if_false]
  cases hi : t.Inputs with
  | nil => exact absurd hi hin
  | cons x rest => simp [checkInputs, NewBlockChain, AList.lookup_empty]

/-- The transaction `spendNothing`, whose input is the all-zero hash, an instance of C15. -/
theorem verify_on_genesis_not_open_witness :
    spendNothing.Inputs = [zeroHash] ∧
      Verify toy (NewBlockChain toy) spendNothing = some .notOpen ∧
      ChainError.message .notOpen = "Transaction not open" :=
  ⟨rfl, verify_on_genesis_not_open toy spendNothing (digestOf 2 1 7 0) rfl (by decide)
    (by decide)⟩

/-! ### C16: intake of a transaction -/

/-- Claim C16. The coordinator answers a submitted transaction with the result of `Verify` on
the current chain state; when that is nil the pending pool is the old pool with the
transaction appended, otherwise the pool is unchanged; the chain state and the stored nonce
offset are unchanged in both cases. -/
theorem handleTransaction_intake (P : Primitives) (server : BlockChainServer)
    (tx : Transaction) :
    (handleTransaction P server tx).2 = Verify P server.blockchain tx ∧
    (Verify P server.blockchain tx = none →
      (handleTransaction P server tx).1.openTransactions = server.openTransactions ++ [tx]) ∧
    (Verify P server.blockchain tx ≠ none →
      (handleTransaction P server tx).1.openTransactions = server.openTransactions) ∧
    (handleTransaction P server tx).1.blockchain = server.blockchain ∧
    (handleTransaction P server tx).1.currentNonce = server.currentNonce := by
  unfold handleTransaction
  cases hv : Verify P server.blockchain tx with
  | none => simp
  | some e => simp

/-- The transactions `spendAB`, accepted, and `badSignature`, rejected, on `serverA`:
instances of C16. -/
theorem handleTransaction_intake_witness :
    Verify toy serverA.blockchain spendAB = none ∧
    (handleTransaction toy serverA spendAB).1.openTransactions
      = serverA.openTransactions ++ [spendAB] ∧
    Verify toy serverA.blockchain badSignature ≠ none ∧
    (handleTransaction toy serverA badSignature).1.openTransactions
      = serverA.openTransactions :=
  ⟨by decide, (handleTransaction_intake toy serverA spendAB).2.1 (by decide), by decide,
    (handleTransaction_intake toy serverA badSignature).2.2.1 (by decide)⟩

/-! ### C14: the spend scenario -/

theorem foldl_spendInput_empty (key : String) (inputs : List SHA) :
    inputs.foldl (spendInput key) (∅ : OpenMap) = ∅ := by
  induction inputs with
  | nil => rfl
  | cons x rest ih =>
    rw [List.foldl_cons]
    have : spendInput key (∅ : OpenMap) x = ∅ := by
      unfold spendInput
      rw [AList.lookup_empty]
    rw [this, ih]

theorem inputSpent_insert_same (key : String) (o : OpenMap) (h : SHA) (outputs : OutputMap)
    (hk : outputs.lookup key = none) : inputSpent (o.insert h outputs) key h := by
  intro m hm
  rw [AList.lookup_insert] at hm
  cases hm
  exact hk

theorem inputSpent_insert_of (key : String) (o : OpenMap) (h h2 : SHA) (outputs : OutputMap)
    (hk : outputs.lookup key = none) (hs : inputSpent o key h) :
    inputSpent (o.insert h2 outputs) key h := by
  by_cases he : h2 = h
  · subst he; exact inputSpent_insert_same key o h2 outputs hk
  · exact inputSpent_insert key o h h2 outputs he hs

theorem lookup_singleton_ne {k k2 : String} (a : GoInt) (h : k2 ≠ k) :
    (AList.singleton k a : OutputMap).lookup k2 = none := by
  rw [← AList.insert_empty, AList.lookup_insert_ne h, AList.lookup_empty]

theorem lookup_singleton_self (k : String) (a : GoInt) :
    (AList.singleton k a : OutputMap).lookup k = some a := by
  rw [← AList.insert_empty, AList.lookup_insert]

theorem alist_eq_empty_of_lookup {β : Type} (m : AList (fun _ : SHA => β))
    (h : ∀ x, m.lookup x = none) : m = ∅ := by
  apply AList.ext
  cases hm : m.entries with
  | nil => rfl
  | cons e rest =>
    have hmem : e.1 ∈ m := by
      rw [AList.mem_keys, AList.keys, hm]
      simp [List.keys]
    exact absurd (h e.1) (by rw [AList.lookup_eq_none]; exact fun hn => hn hmem)

theorem alist_eq_singleton_of_lookup {β : Type} (m : AList (fun _ : SHA => β)) (k : SHA) (b : β)
    (h : ∀ x, m.lookup x = if x = k then some b else none) : m = AList.singleton k b := by
  apply AList.ext
  have hp : m.entries.Perm (AList.singleton k b : AList (fun _ : SHA => β)).entries :=
    List.lookup_ext m.nodupKeys (AList.singleton k b : AList (fun _ : SHA => β)).nodupKeys
      (fun x y => by
      show y ∈ m.lookup x ↔ y ∈ (AList.singleton k b : AList (fun _ : SHA => β)).lookup x
      rw [h x]
      by_cases hx : x = k
      · subst hx
        rw [← AList.insert_empty, AList.lookup_insert]
        simp
      · rw [← AList.insert_empty, AList.lookup_insert_ne hx, AList.lookup_empty]
        simp [hx])
  rw [AList.singleton_entries] at hp ⊢
  exact List.perm_singleton.1 hp

theorem getOpenInputs_eq_empty (P : Primitives) (bc : BlockChain) (key : PublicKey)
    (h : ∀ x, inputSpent bc.openTransactions (P.publicKeyString key) x) :
    GetOpenInputs P bc key = ∅ := by
  apply alist_eq_empty_of_lookup
  intro x
  rw [getOpenInputs_lookup]
  cases hl : bc.openTransactions.lookup x with
  | none => rfl
  | some m => exact h x m hl

/-- Claim C14. Starting from `NewBlockChain()`, for accounts `A` and `B` with distinct key
strings: once a block whose coinbase `c` pays 25 to `A` is committed, `Verify` accepts every
validly signed transaction `t` of `A` with the hash of `c` as its one input and 25 for `B` as
its outputs, and the verification loop of `addNextBlock` passes every list of a coinbase that
creates 25 coins followed by `t`; and once a block of a coinbase that pays neither `A` nor `B`
and of `t` is committed, `GetOpenInputs(A)` is empty and `GetOpenInputs(B)` is the hash of `t`
with 25. -/
theorem spend_scenario (P : Primitives) (A B : PublicKey) (c t : Transaction)
    (fuel1 : Nat) (bc1 : BlockChain) (digest : SHA)
    (hAB : P.publicKeyString A ≠ P.publicKeyString B)
    (hc : c.Outputs = AList.singleton (P.publicKeyString A) (GoInt.ofInt 25))
    (h1 : addNextBlock P fuel1 (NewBlockChain P) [c] = .ret (none, bc1))
    (hin : t.Inputs = [P.txHash c]) (hsender : t.Sender = A)
    (hout : t.Outputs = AList.singleton (P.publicKeyString B) (GoInt.ofInt 25))
    (hd : P.bytesToSign t.Recipient t.Inputs = Except.ok digest)
    (hs : P.verifyPKCS1v15 t.Sender digest t.Signature = true) :
    Verify P bc1 t = none ∧
    (∀ c2 : Transaction, outputTotal c2.Outputs = blockReward →
      verifyTransactions P bc1 0 [c2, t] = none) ∧
    ∀ (c2 : Transaction) (fuel2 : Nat) (bc2 : BlockChain),
      c2.Outputs.lookup (P.publicKeyString A) = none →
      c2.Outputs.lookup (P.publicKeyString B) = none →
      addNextBlock P fuel2 bc1 [c2, t] = .ret (none, bc2) →
      GetOpenInputs P bc2 A = ∅ ∧
      GetOpenInputs P bc2 B = AList.singleton (P.txHash t) (GoInt.ofInt 25) := by
  have hidx1 : bc1.openTransactions
      = AList.insert (P.txHash c) (AList.singleton (P.publicKeyString A) (GoInt.ofInt 25)) ∅ := by
    rw [addNextBlock_openTransactions P fuel1 _ _ _ h1]
    simp only [List.foldl_cons, List.foldl_nil, applyTransaction, NewBlockChain,
      foldl_spendInput_empty, hc]
  have hverify : Verify P bc1 t = none := by
    unfold Verify
    rw [hd]
    simp only [hs, Bool.true_eq_false, if_false]
    rw [hin, hsender]
    simp only [checkInputs, inputTotal, hidx1, AList.lookup_insert, lookup_singleton_self,
      Option.getD_some, hout]
    have : outputTotal (AList.singleton (P.publicKeyString B) (GoInt.ofInt 25))
        = 0 + GoInt.ofInt 25 := by
      rw [outputTotal_eq_sum, AList.singleton_entries]
      simp
    rw [this]
    simp
  refine ⟨hverify, ?_, ?_⟩
  · intro c2 h25
    rw [verifyTransactions_cons]
    simp [h25, hverify]
  · intro c2 fuel2 bc2 hc2A hc2B h2
    have hidx2 := addNextBlock_openTransactions P fuel2 _ _ _ h2
    simp only [List.foldl_cons, List.foldl_nil] at hidx2
    refine ⟨?_, ?_⟩
    · apply getOpenInputs_eq_empty
      intro x
      rw [hidx2]
      unfold applyTransaction
      rw [hin, hsender]
      simp only [List.foldl_cons, List.foldl_nil]
      apply inputSpent_insert_of
      · rw [hout]; exact lookup_singleton_ne _ hAB
      · by_cases hx : x = P.txHash c
        · subst hx
          exact inputSpent_spendInput_self _ _ _
        · apply inputSpent_spendInput
          apply inputSpent_insert_of _ _ _ _ _ hc2A
          apply inputSpent_foldl
          intro m hm
          rw [hidx1, AList.lookup_insert_ne hx, AList.lookup_empty] at hm
          cases hm
    · apply alist_eq_singleton_of_lookup
      intro x
      rw [getOpenInputs_lookup, hidx2]
      have hbefore : inputSpent
          (t.Inputs.foldl (spendInput (P.publicKeyString t.Sender))
            ((c2.Inputs.foldl (spendInput (P.publicKeyString c2.Sender)) bc1.openTransactions).insert
              (P.txHash c2) c2.Outputs))
          (P.publicKeyString B) x := by
        apply inputSpent_foldl
        apply inputSpent_insert_of _ _ _ _ _ hc2B
        apply inputSpent_foldl
        intro m hm
        rw [hidx1] at hm
        by_cases hx : x = P.txHash c
        · subst hx
          rw [AList.lookup_insert] at hm
          cases hm
          exact lookup_singleton_ne _ (Ne.symm hAB)
        · rw [AList.lookup_insert_ne hx, AList.lookup_empty] at hm
          cases hm
      unfold applyTransaction
      by_cases hx : x = P.txHash t
      · subst hx
        rw [AList.lookup_insert, hout]
        simp [lookup_singleton_self]
      · rw [AList.lookup_insert_ne hx, if_neg hx]
        cases hl : AList.lookup x (t.Inputs.foldl (spendInput (P.publicKeyString t.Sender))
            ((c2.Inputs.foldl (spendInput (P.publicKeyString c2.Sender)) bc1.openTransactions).insert
              (P.txHash c2) c2.Outputs)) with
        | none => rfl
        | some m => exact hbefore m hl

/-- The accounts `A` and `B` of the instance `toy` with the blocks of `coinbaseA` and of
`coinbaseM` and `spendAB`, an instance of C14. -/
theorem spend_scenario_witness :
    addNextBlock toy 1 (NewBlockChain toy) [coinbaseA] = .ret (none, chainA) ∧
    Verify toy chainA spendAB = none ∧
    verifyTransactions toy chainA 0 [coinbaseM, spendAB] = none ∧
    ∃ bc2, addNextBlock toy 1 chainA [coinbaseM, spendAB] = .ret (none, bc2) ∧
      GetOpenInputs toy bc2 keyA = ∅ ∧
      GetOpenInputs toy bc2 keyB = AList.singleton (toy.txHash spendAB) (GoInt.ofInt 25) :=
  ⟨rfl,
    (spend_scenario toy keyA keyB coinbaseA spendAB 1 chainA (digestOf 2 1 7 0)
      (by decide) rfl rfl rfl rfl rfl rfl (by decide)).1,
    (spend_scenario toy keyA keyB coinbaseA spendAB 1 chainA (digestOf 2 1 7 0)
      (by decide) rfl rfl rfl rfl rfl rfl (by decide)).2.1 coinbaseM (by decide),
    _, rfl,
    (spend_scenario toy keyA keyB coinbaseA spendAB 1 chainA (digestOf 2 1 7 0)
      (by decide) rfl rfl rfl rfl rfl rfl (by decide)).2.2 coinbaseM 1 _
      (by decide) (by decide) rfl⟩

/-! ### C18: the input of the block hash -/

theorem contents_eq_hashInput (P : Primitives) (b : Block) : b.contents P = b.hashInput P := by
  have h : ∀ (txs : List Transaction) (init : List Byte),
      txs.foldl (fun contents t => contents ++ (P.txHash t).bytes) init
        = init ++ (txs.map (fun t => (P.txHash t).bytes)).flatten := by
    intro txs
    induction txs with
    | nil => intro init; simp
    | cons t rest ih => intro init; simp [ih]
  exact h _ _

theorem putUint64_length (v : Nat) : (putUint64 v).length = 8 := by
  simp [putUint64]

theorem getUint64_putUint64 (v : Nat) :
    getUint64 (putUint64 v) = v % 18446744073709551616 := by
  have h : putUint64 v
      = [⟨v / 256 ^ 0 % 256, Nat.mod_lt _ (by decide)⟩, ⟨v / 256 ^ 1 % 256, Nat.mod_lt _ (by decide)⟩,
         ⟨v / 256 ^ 2 % 256, Nat.mod_lt _ (by decide)⟩, ⟨v / 256 ^ 3 % 256, Nat.mod_lt _ (by decide)⟩,
         ⟨v / 256 ^ 4 % 256, Nat.mod_lt _ (by decide)⟩, ⟨v / 256 ^ 5 % 256, Nat.mod_lt _ (by decide)⟩,
         ⟨v / 256 ^ 6 % 256, Nat.mod_lt _ (by decide)⟩, ⟨v / 256 ^ 7 % 256, Nat.mod_lt _ (by decide)⟩] :=
    rfl
  rw [h]
  simp only [getUint64, List.foldr_cons, List.foldr_nil]
  norm_num
  omega

theorem toUint64_inj (a b : GoInt) (h : a.toUint64 = b.toUint64) : a = b := by
  apply GoInt.eqOfVal
  have ha := a.lo
  have ha2 := a.hi
  have hb := b.lo
  have hb2 := b.hi
  unfold GoInt.toUint64 at h
  omega

theorem toUint64_lt (a : GoInt) : a.toUint64 < 18446744073709551616 := by
  unfold GoInt.toUint64
  omega

theorem hashes_flatten_inj (l1 l2 : List SHA)
    (h : (l1.map SHA.bytes).flatten = (l2.map SHA.bytes).flatten) : l1 = l2 := by
  induction l1 generalizing l2 with
  | nil =>
    cases l2 with
    | nil => rfl
    | cons y ys =>
      have := congrArg List.length h
      simp [y.size] at this
      omega
  | cons x xs ih =>
    cases l2 with
    | nil =>
      have := congrArg List.length h
      simp [x.size] at this
    | cons y ys =>
      simp only [List.map_cons, List.flatten_cons] at h
      obtain ⟨hxy, hrest⟩ := List.append_inj h (by rw [x.size, y.size])
      have hx : x = y := by
        cases x; cases y; cases hxy; rfl
      rw [hx, ih ys hrest]

theorem hashes_flatten_length (l : List SHA) : (l.map SHA.bytes).flatten.length = 32 * l.length := by
  induction l with
  | nil => rfl
  | cons x xs ih =>
    simp only [List.map_cons, List.flatten_cons, List.length_append, ih, x.size, List.length_cons]
    omega

/-- Claim C18. For every block, `Block.Hash()` is SHA-256 of `prevHash` (32 bytes) followed by
the 8 bytes of the nonce as an unsigned 64-bit value, lowest byte first, followed by the
32-byte hashes of the transactions in order; this byte string has length
`40 + 32*len(transactions)`, and two blocks with the same byte string have the same `prevHash`,
the same nonce modulo 2^64 (hence the same nonce) and the same sequence of transaction
hashes. -/
theorem block_hash_definition (P : Primitives) (b : Block) :
    b.Hash P = P.sha256 (b.hashInput P) ∧
    b.prevHash.bytes.length = 32 ∧
    (putUint64 b.nonce.toUint64).length = 8 ∧
    getUint64 (putUint64 b.nonce.toUint64) = (b.nonce.val % 18446744073709551616).toNat ∧
    (b.hashInput P).length = 40 + 32 * b.transactions.length ∧
    ∀ b2 : Block, b.hashInput P = b2.hashInput P →
      b.prevHash = b2.prevHash ∧
      b.nonce.val % 18446744073709551616 = b2.nonce.val % 18446744073709551616 ∧
      b.nonce = b2.nonce ∧
      b.transactions.map P.txHash = b2.transactions.map P.txHash := by
  refine ⟨?_, b.prevHash.size, putUint64_length _, ?_, ?_, ?_⟩
  · rw [Block.Hash, contents_eq_hashInput]
  · rw [getUint64_putUint64, Nat.mod_eq_of_lt (toUint64_lt _)]
    rfl
  · have h := hashes_flatten_length (b.transactions.map P.txHash)
    rw [List.map_map] at h
    simp only [Block.hashInput, List.length_append, b.prevHash.size, putUint64_length]
    rw [List.length_map] at h
    have e : (List.map (fun t => (P.txHash t).bytes) b.transactions)
        = List.map (SHA.bytes ∘ P.txHash) b.transactions := rfl
    rw [e, h]
  · intro b2 h
    unfold Block.hashInput at h
    rw [List.append_assoc, List.append_assoc] at h
    obtain ⟨hprev, hrest⟩ := List.append_inj h (by rw [b.prevHash.size, b2.prevHash.size])
    obtain ⟨hnonce, htxs⟩ := List.append_inj hrest (by rw [putUint64_length, putUint64_length])
    have hp : b.prevHash = b2.prevHash := by
      cases hb : b.prevHash; cases hb2 : b2.prevHash
      rw [hb, hb2] at hprev
      cases hprev; rfl
    have hn : b.nonce.toUint64 = b2.nonce.toUint64 := by
      have := congrArg getUint64 hnonce
      rw [getUint64_putUint64, getUint64_putUint64, Nat.mod_eq_of_lt (toUint64_lt _),
        Nat.mod_eq_of_lt (toUint64_lt _)] at this
      exact this
    have hnn := toUint64_inj _ _ hn
    refine ⟨hp, by rw [hnn], hnn, ?_⟩
    apply hashes_flatten_inj
    rw [List.map_map, List.map_map]
    exact htxs

/-- The block of `coinbaseM` and `spendAB` with the nonce -1, whose eight nonce bytes are all
`0xff`: an instance of C18. -/
theorem block_hash_definition_witness :
    putUint64 (GoInt.ofInt (-1)).toUint64 = [255, 255, 255, 255, 255, 255, 255, 255] ∧
    (Block.hashInput toy ⟨digestOf 0 40 0 0, GoInt.ofInt (-1), [coinbaseM, spendAB]⟩).length
      = 40 + 32 * 2 ∧
    Block.Hash toy ⟨digestOf 0 40 0 0, GoInt.ofInt (-1), [coinbaseM, spendAB]⟩
      = toy.sha256
          (Block.hashInput toy ⟨digestOf 0 40 0 0, GoInt.ofInt (-1), [coinbaseM, spendAB]⟩) :=
  ⟨by decide,
    (block_hash_definition toy ⟨digestOf 0 40 0 0, GoInt.ofInt (-1), [coinbaseM, spendAB]⟩).2.2.2.2.1,
    (block_hash_definition toy ⟨digestOf 0 40 0 0, GoInt.ofInt (-1), [coinbaseM, spendAB]⟩).1⟩

/-! ### C11 and C12: the search for the nonce -/

/-- The search probes the nonces from the one it is entered with upwards, and returns the block
of the first one whose hash has a zero first byte. -/
theorem mine_first (P : Primitives) (prev : SHA) (txs : List Transaction) (fuel start : Nat)
    (b : Block) (h : mine P prev txs fuel (GoInt.ofInt (start : Nat)) = .ret b) :
    ∃ k, k < fuel ∧ b = ⟨prev, GoInt.ofInt ((start + k : Nat) : Int), txs⟩ ∧
      (Block.Hash P b).byte 0 = 0 ∧
      ∀ j, j < k →
        (Block.Hash P ⟨prev, GoInt.ofInt ((start + j : Nat) : Int), txs⟩).byte 0 ≠ 0 := by
  induction fuel generalizing start with
  | zero => simp [mine] at h
  | succ n ih =>
    rw [mine] at h
    split at h
    · rename_i hmiss
      rw [GoInt.ofInt_succ] at h
      obtain ⟨k, hk, hb, hz, hbefore⟩ := ih (start + 1) h
      refine ⟨k + 1, by omega, ?_, hz, ?_⟩
      · rw [hb]
        congr 3
        omega
      · intro j hj
        cases j with
        | zero => exact hmiss
        | succ i =>
          have := hbefore i (by omega)
          have e : start + 1 + i = start + (i + 1) := by omega
          rw [e] at this
          exact this
    · rename_i hz
      cases h
      exact ⟨0, by omega, rfl, by simpa using hz, fun j hj => absurd hj (by omega)⟩

/-- When no hash has a zero first byte, no number of steps ends the search. -/
theorem mine_never (P : Primitives) (hP : ∀ bs, (P.sha256 bs).byte 0 ≠ 0) (prev : SHA)
    (txs : List Transaction) (fuel : Nat) (nonce : GoInt) :
    mine P prev txs fuel nonce = .outOfFuel := by
  induction fuel generalizing nonce with
  | zero => rfl
  | succ n ih =>
    rw [mine]
    simp only [Block.Hash, hP, ne_eq, not_false_eq_true, if_true, ih]

theorem meetsDifficulty_of_byte (difficulty : Nat) (h : SHA) (i : Nat) (hi : i < difficulty)
    (hb : h.byte i ≠ 0) : meetsDifficulty difficulty h = false := by
  rw [Bool.eq_false_iff]
  intro hall
  unfold meetsDifficulty at hall
  rw [List.all_eq_true] at hall
  have := hall i (List.mem_range.2 hi)
  exact hb (of_decide_eq_true this)

theorem sha256_mine_short : mine withSha256 sha256Prev [] 220 0 = .outOfFuel := by
  show mine withSha256 sha256Prev [] 220 (GoInt.ofInt (0 : Nat)) = _
  rw [mine_skip withSha256 sha256Prev [] 198 0 22 220 22 rfl rfl sha256_miss_0,
    mine_skip withSha256 sha256Prev [] 176 22 22 198 44 rfl rfl sha256_miss_22,
    mine_skip withSha256 sha256Prev [] 154 44 22 176 66 rfl rfl sha256_miss_44,
    mine_skip withSha256 sha256Prev [] 132 66 22 154 88 rfl rfl sha256_miss_66,
    mine_skip withSha256 sha256Prev [] 110 88 22 132 110 rfl rfl sha256_miss_88,
    mine_skip withSha256 sha256Prev [] 88 110 22 110 132 rfl rfl sha256_miss_110,
    mine_skip withSha256 sha256Prev [] 66 132 22 88 154 rfl rfl sha256_miss_132,
    mine_skip withSha256 sha256Prev [] 44 154 22 66 176 rfl rfl sha256_miss_154,
    mine_skip withSha256 sha256Prev [] 22 176 22 44 198 rfl rfl sha256_miss_176,
    mine_skip withSha256 sha256Prev [] 0 198 22 22 220 rfl rfl sha256_miss_198]
  rfl

theorem sha256_addNextBlock :
    addNextBlock withSha256 221 (NewBlockChain withSha256) [] = .ret (none, sha256Chain) := by
  rw [addNextBlock_ok]
  exact ⟨rfl, _, _, rfl, sha256_mine, rfl⟩

set_option maxRecDepth 1000000 in
theorem sha256_rewardChain :
    addNextBlock withSha256 1 (NewBlockChain withSha256) [rewardA] = .ret (none, rewardChain) := by
  decide!

set_option maxRecDepth 1000000 in
theorem sha256_spentChain :
    addNextBlock withSha256 1 rewardChain [rewardM, spendReward] = .ret (none, spentChain) := by
  decide!

set_option maxRecDepth 1000000 in
theorem sha256_spentChain_blocks :
    spentChain.blocks = [genesisBlock withSha256,
      ⟨sha256Prev, 0, [{ rewardA with Outputs := ∅ }]⟩,
      ⟨rewardBlock.Hash withSha256, 0, [rewardM, spendReward]⟩] := by
  decide!

set_option maxRecDepth 1000000 in
theorem sha256_rewardBlock_hash :
    (rewardBlock.Hash withSha256).bytes.take 2 = [0, 97] ∧
    (Block.Hash withSha256 ⟨sha256Prev, 0, [{ rewardA with Outputs := ∅ }]⟩).bytes.take 2
      = [210, 214] := by
  decide!

/-- Claim C11, evaluated where it fails. Under SHA-256, in the call of `addNextBlock` for the
empty transaction list on `NewBlockChain()`, 220 hash computations do not end the search,
which begins at nonce 0; the call returns nil with the block of nonce 220 appended. And at the
call site of the coordinator, with `NonceAttempts` and the start nonce 10000 it holds after one
batch, the call for the reward transaction `rewardA` appends the block of nonce 0. The method
takes no attempt limit and no start nonce: the nonces it probes are 0, 1, 2, ... until one
hits, and the outcome is never the limit being reached. -/
theorem search_ignores_limit_and_start :
    NonceAttempts = GoInt.ofInt 10000 ∧
    mine withSha256 sha256Prev [] 220 0 = .outOfFuel ∧
    addNextBlock withSha256 221 (NewBlockChain withSha256) [] = .ret (none, sha256Chain) ∧
    sha256Chain.blocks.map Block.nonce = [0, GoInt.ofInt 220] ∧
    sha256Chain ≠ NewBlockChain withSha256 ∧
    addNextBlockCall withSha256 1 NonceDifficulty NonceAttempts (GoInt.ofInt 10000) [rewardA]
      (NewBlockChain withSha256) = .ret (none, rewardChain) ∧
    rewardChain.blocks.map Block.nonce = [0, 0] :=
  ⟨rfl, sha256_mine_short, sha256_addNextBlock, rfl, by
    intro h
    have := congrArg (fun bc => bc.blocks.length) h
    simp [sha256Chain, NewBlockChain] at this, sha256_rewardChain, rfl⟩

/-- Claim C12, evaluated where it fails. Under SHA-256 the block `addNextBlock` appends to
`NewBlockChain()` for the empty transaction list has the nonce 220, and its hash does not meet
the difficulty `NonceDifficulty` of two leading zero bytes: the nonce returned is not one
whose hash meets the difficulty. -/
theorem appended_block_misses_difficulty :
    addNextBlock withSha256 221 (NewBlockChain withSha256) [] = .ret (none, sha256Chain) ∧
    sha256Chain.blocks.getLast? = some (emptyBlock 220) ∧
    meetsDifficulty NonceDifficulty ((emptyBlock 220).Hash withSha256) = false :=
  ⟨sha256_addNextBlock, rfl,
    meetsDifficulty_of_byte _ _ 1 (by decide) (by rw [sha256_hit_220.2]; decide)⟩

/-- What the search does find. Whenever `addNextBlock` appends a block, the block is the one of
`prevHash` (the hash of the last block), the given transactions and a nonce `n` such that, in
the probing order 0, 1, 2, ..., the hash for `n` has a zero first byte and the hash for every
`m` before `n` has a first byte other than zero, so that no nonce before `n` meets a difficulty
of one byte or more; `prevHash` and the transactions are the same for every probe. -/
theorem appended_nonce_is_first_hit (P : Primitives) (fuel : Nat) (bc bc2 : BlockChain)
    (txs : List Transaction) (hadd : addNextBlock P fuel bc txs = .ret (none, bc2)) :
    ∃ last n, bc.blocks.getLast? = some last ∧ n < fuel ∧
      bc2.blocks.map Block.frame
        = (bc.blocks ++ [(⟨last.Hash P, GoInt.ofInt (n : Nat), txs⟩ : Block)]).map Block.frame ∧
      (Block.Hash P ⟨last.Hash P, GoInt.ofInt (n : Nat), txs⟩).byte 0 = 0 ∧
      ∀ m, m < n →
        (Block.Hash P ⟨last.Hash P, GoInt.ofInt (m : Nat), txs⟩).byte 0 ≠ 0 ∧
        ∀ difficulty, 1 ≤ difficulty →
          meetsDifficulty difficulty (Block.Hash P ⟨last.Hash P, GoInt.ofInt (m : Nat), txs⟩)
            = false := by
  obtain ⟨_, last, newBlock, hlast, hm, rfl⟩ := (addNextBlock_ok P fuel _ _ _).1 hadd
  obtain ⟨k, hk, hb, hz, hbefore⟩ := mine_first P _ _ fuel 0 newBlock hm
  simp only [Nat.zero_add] at hb hbefore
  subst hb
  refine ⟨last, k, hlast, hk, commitTransactions_frame P _ 0 txs _, hz, ?_⟩
  intro m hmk
  exact ⟨hbefore m hmk, fun d hd => meetsDifficulty_of_byte d _ 0 (by omega) (hbefore m hmk)⟩

/-- The block appended under SHA-256 for the empty transaction list, an instance of
`appended_nonce_is_first_hit`. -/
theorem appended_nonce_is_first_hit_witness :
    addNextBlock withSha256 221 (NewBlockChain withSha256) [] = .ret (none, sha256Chain) ∧
    ∃ last n, (NewBlockChain withSha256).blocks.getLast? = some last ∧ n < 221 ∧
      sha256Chain.blocks.map Block.frame
        = ((NewBlockChain withSha256).blocks
            ++ [(⟨last.Hash withSha256, GoInt.ofInt (n : Nat), []⟩ : Block)]).map Block.frame ∧
      (Block.Hash withSha256 ⟨last.Hash withSha256, GoInt.ofInt (n : Nat), []⟩).byte 0 = 0 ∧
      ∀ m, m < n →
        (Block.Hash withSha256 ⟨last.Hash withSha256, GoInt.ofInt (m : Nat), []⟩).byte 0 ≠ 0 ∧
        ∀ difficulty, 1 ≤ difficulty →
          meetsDifficulty difficulty
            (Block.Hash withSha256 ⟨last.Hash withSha256, GoInt.ofInt (m : Nat), []⟩) = false :=
  ⟨sha256_addNextBlock,
    appended_nonce_is_first_hit withSha256 221 (NewBlockChain withSha256) sha256Chain []
      sha256_addNextBlock⟩

/-! ### C17: the mining step of the coordinator -/

/-- When the call of `addNextBlock` returns an error, the mining step adds `NonceAttempts` to
the nonce offset and leaves the pending pool as it is. -/
theorem mineStep_error {ε : Type}
    (call : Nat → GoInt → GoInt → List Transaction → BlockChain → Run (Option ε × BlockChain))
    (server : BlockChainServer) (genesisTx : Transaction) (e : ε) (bc : BlockChain)
    (h : call NonceDifficulty NonceAttempts server.currentNonce
      (blockTransactions server genesisTx) server.blockchain = .ret (some e, bc)) :
    mineStep call server genesisTx
      = .ret ⟨server.openTransactions, bc, server.currentNonce + NonceAttempts⟩ := by
  unfold mineStep
  rw [h]

/-- When the call of `addNextBlock` returns nil, the mining step empties the pending pool and
leaves the nonce offset as it is. -/
theorem mineStep_ok {ε : Type}
    (call : Nat → GoInt → GoInt → List Transaction → BlockChain → Run (Option ε × BlockChain))
    (server : BlockChainServer) (genesisTx : Transaction) (bc : BlockChain)
    (h : call NonceDifficulty NonceAttempts server.currentNonce
      (blockTransactions server genesisTx) server.blockchain = .ret (none, bc)) :
    mineStep call server genesisTx = .ret ⟨[], bc, server.currentNonce⟩ := by
  unfold mineStep
  rw [h]

/-- Claim C17, evaluated where it fails. The coordinator holds the nonce offset 10000, the
chain `chainA` and the pending transaction `spendAB`; the mining step runs over the reward
transaction followed by the pool, the call returns nil and a third block is committed.
Afterwards the pending pool is empty and the nonce offset is still 10000, not zero: the branch
for nil of `runServer` does not assign `server.currentNonce`. -/
theorem mining_success_keeps_nonce_offset :
    serverLater.currentNonce = GoInt.ofInt 10000 ∧
    blockTransactions serverLater coinbaseM = [coinbaseM, spendAB] ∧
    ∃ s, mineStep (addNextBlockCall toy 1) serverLater coinbaseM = .ret s ∧
      s.openTransactions = [] ∧
      s.blockchain.blocks.length = 3 ∧
      s.currentNonce = GoInt.ofInt 10000 ∧
      s.currentNonce ≠ 0 :=
  ⟨rfl, rfl, _, rfl, rfl, by decide, by decide, by decide⟩

/-! ### C19: the first transaction of every block -/

/-- Claim C19, evaluated where it fails. Under SHA-256, `addNextBlock` returns nil for the
empty transaction list, so the reachable chain it gives has a block at index 1 without a
transaction; and on the reachable chain after the block of `rewardA` and the block of `rewardM`
and `spendReward`, the first transaction of the block at index 1, which paid 25 to `A` when it
was committed, has outputs that sum to 0. -/
theorem block_without_reward_total :
    (addNextBlock withSha256 221 (NewBlockChain withSha256) [] = .ret (none, sha256Chain) ∧
      Reachable withSha256 sha256Chain ∧
      (sha256Chain.blocks[1]?).map Block.transactions = some []) ∧
    (outputSum rewardA.Outputs = 25 ∧
      addNextBlock withSha256 1 (NewBlockChain withSha256) [rewardA] = .ret (none, rewardChain) ∧
      addNextBlock withSha256 1 rewardChain [rewardM, spendReward] = .ret (none, spentChain) ∧
      Reachable withSha256 spentChain ∧
      (spentChain.blocks[1]?).map (fun b => b.transactions.map (fun t => outputSum t.Outputs))
        = some [0]) :=
  ⟨⟨sha256_addNextBlock, Reachable.step 221 [] Reachable.init sha256_addNextBlock, rfl⟩,
    ⟨by decide, sha256_rewardChain, sha256_spentChain,
      Reachable.step 1 [rewardM, spendReward]
        (Reachable.step 1 [rewardA] Reachable.init sha256_rewardChain) sha256_spentChain,
      by rw [sha256_spentChain_blocks]; decide⟩⟩

/-! ### C20: the links of the chain -/

theorem mine_ne_crash (P : Primitives) (prev : SHA) (txs : List Transaction) (fuel : Nat)
    (nonce : GoInt) : mine P prev txs fuel nonce ≠ .crash := by
  induction fuel generalizing nonce with
  | zero => simp [mine]
  | succ n ih =>
    rw [mine]
    split
    · exact ih _
    · simp

/-- In every reachable chain the first block is the genesis block. -/
theorem reachable_head (P : Primitives) (bc : BlockChain) (h : Reachable P bc) :
    bc.blocks.head? = some (genesisBlock P) := by
  have hf : (bc.blocks.map Block.frame).head? = some (genesisBlock P).frame := by
    induction h with
    | init => rfl
    | @step bc0 bc2 fuel txs _ hadd ih =>
      obtain ⟨nb, _, hframe⟩ := addNextBlock_blocks_frame P fuel _ _ txs hadd
      rw [hframe, List.map_append]
      cases hb : bc0.blocks with
      | nil => rw [hb] at ih; simp at ih
      | cons b rest => rw [hb] at ih; simpa using ih
  cases hb : bc.blocks with
  | nil => rw [hb] at hf; simp at hf
  | cons b rest =>
    rw [hb] at hf
    simp only [List.map_cons, List.head?_cons, Option.some.injEq, Block.frame, genesisBlock,
      Prod.mk.injEq, List.map_nil, List.map_eq_nil_iff] at hf
    obtain ⟨h1, h2, h3⟩ := hf
    rcases b with ⟨p, n, t⟩
    simp only at h1 h2 h3
    subst h1 h2 h3
    rfl

/-- On a reachable chain `addNextBlock` does not stop with a run-time panic: the slice
`bc.blocks` it indexes is not empty. -/
theorem addNextBlock_ne_crash (P : Primitives) (bc : BlockChain) (h : Reachable P bc)
    (fuel : Nat) (txs : List Transaction) :
    bc.blocks ≠ [] ∧ addNextBlock P fuel bc txs ≠ .crash := by
  have hh := reachable_head P bc h
  have hne : bc.blocks ≠ [] := by
    intro hnil
    rw [hnil] at hh
    simp at hh
  refine ⟨hne, ?_⟩
  unfold addNextBlock
  cases hv : verifyTransactions P bc 0 txs with
  | some e => simp
  | none =>
    simp only
    cases hl : bc.blocks.getLast? with
    | none => exact absurd (List.getLast?_eq_none_iff.1 hl) hne
    | some last =>
      simp only
      have := mine_ne_crash P (last.Hash P) txs fuel 0
      cases hm : mine P (last.Hash P) txs fuel 0 with
      | ret b => simp
      | crash => exact absurd hm this
      | outOfFuel => simp

/-- At the moment a block is appended, its `prevHash` is the hash of the block that was last
before it. -/
theorem addNextBlock_links (P : Primitives) (fuel : Nat) (bc bc2 : BlockChain)
    (txs : List Transaction) (hadd : addNextBlock P fuel bc txs = .ret (none, bc2)) :
    ∃ last, bc.blocks.getLast? = some last ∧
      (bc2.blocks.map Block.frame).getLast?.map (fun f => f.1) = some (last.Hash P) := by
  obtain ⟨_, last, newBlock, hlast, hm, rfl⟩ := (addNextBlock_ok P fuel _ _ _).1 hadd
  refine ⟨last, hlast, ?_⟩
  rw [commitTransactions_frame]
  simp [Block.frame, (mine_ret P _ _ _ _ _ hm).1]

/-- Claim C20, evaluated where it fails. Under SHA-256, `addNextBlock` returns nil for the block
of `rewardA`, which pays 25 to `A`, and then for the block of `rewardM` and `spendReward`, which
spends that output. In the reachable chain after the two calls the block at index 0 is the
genesis block, the block at index 1 holds `rewardA` without its output, and the `prevHash` of
the block at index 2 is the hash the block at index 1 had with the output, which starts with
`0x00 0x61`; the hash of the block at index 1 as it is now starts with `0xd2 0xd6`. -/
theorem spend_breaks_chain_link :
    addNextBlock withSha256 1 (NewBlockChain withSha256) [rewardA] = .ret (none, rewardChain) ∧
    addNextBlock withSha256 1 rewardChain [rewardM, spendReward] = .ret (none, spentChain) ∧
    Reachable withSha256 spentChain ∧
    rewardChain.blocks[1]? = some rewardBlock ∧
    ∃ b1 b2, spentChain.blocks = [genesisBlock withSha256, b1, b2] ∧
      b1 = ⟨sha256Prev, 0, [{ rewardA with Outputs := ∅ }]⟩ ∧
      b2.prevHash = rewardBlock.Hash withSha256 ∧
      (b2.prevHash.bytes.take 2 = [0, 97] ∧ (b1.Hash withSha256).bytes.take 2 = [210, 214]) ∧
      b2.prevHash ≠ b1.Hash withSha256 :=
  ⟨sha256_rewardChain, sha256_spentChain,
    Reachable.step 1 [rewardM, spendReward]
      (Reachable.step 1 [rewardA] Reachable.init sha256_rewardChain) sha256_spentChain,
    rfl, _, _, sha256_spentChain_blocks, rfl, rfl, sha256_rewardBlock_hash, by
      intro h
      have h2 := sha256_rewardBlock_hash
      rw [← h] at h2
      have h3 := h2.1.symm.trans h2.2
      revert h3
      decide⟩

end Ktcoin
